import Mathlib

/-!
Verification development for the cc-switch synchronization engine
(`src-tauri/src/services/{command,hook,agent,update}.rs` and
`src-tauri/src/database/dao/*.rs`).

The Rust services are shallowly embedded: the filesystem trees (SSOT
directory, per-app directories, per-project directories) become finite
maps from relative path to file content, the SQLite tables become lists
of records, and each service method becomes a Lean function returning
its `Result` together with the post state.  Network calls (GitHub API,
raw downloads) are passed in as explicit oracle arguments, and the
third-party strict parsers (`serde_yaml`, `serde_json`) are passed as
oracle functions or modelled by an executable JSON well-formedness
checker, as documented at each definition.

String manipulation is implemented over `List Char` with structural or
fuel recursion, so that every definition evaluates inside the kernel on
concrete inputs.
-/

namespace CCSwitch

/-! ## String toolkit

Executable models of the Rust `str` operations used by the services.
They operate on `String.data` (the character list) so that all of them
reduce by `decide`/`rfl`.  Positions are counted in characters rather
than bytes; every place the Rust code slices a string it does so at the
boundary of an ASCII pattern, where the two measures coincide.
-/

/-- Whitespace as recognised by `char::is_whitespace` for the characters
that actually occur in the inputs handled here (space, tab, CR, LF). -/
def wsChar (c : Char) : Bool :=
  c = ' ' || c = '\t' || c = '\n' || c = '\r'

/-- Model of `str::to_lowercase` (agrees with it on ASCII input). -/
def lowerStr (s : String) : String :=
  ⟨s.data.map Char.toLower⟩

/-- Model of `str::trim`. -/
def trimStr (s : String) : String :=
  ⟨((s.data.dropWhile wsChar).reverse.dropWhile wsChar).reverse⟩

/-- Model of `str::starts_with` for a string pattern. -/
def startsWithStr (s pre : String) : Bool :=
  pre.data.isPrefixOf s.data

/-- Drops the first `n` characters, modelling an ASCII slice `&s[n..]`. -/
def dropStr (s : String) (n : Nat) : String :=
  ⟨s.data.drop n⟩

/-- Auxiliary scanner for `splitOnStr`, fuelled by the input length. -/
def splitOnAuxL (sep : List Char) : Nat → List Char → List Char → List (List Char)
  | 0, acc, _ => [acc.reverse]
  | _ + 1, acc, [] => [acc.reverse]
  | fuel + 1, acc, c :: cs =>
    if sep.isPrefixOf (c :: cs) then
      acc.reverse :: splitOnAuxL sep fuel [] ((c :: cs).drop sep.length)
    else
      splitOnAuxL sep fuel (c :: acc) cs

/-- Model of `str::split(sep)` collected into a list (leftmost,
non-overlapping matches; the separator is always non-empty here). -/
def splitOnStr (s sep : String) : List String :=
  (splitOnAuxL sep.data (s.data.length + 1) [] s.data).map (fun l => ⟨l⟩)

/-- Model of `str::splitn(3, sep)`: at most two splits are performed and
the remainder is kept intact in the final part. -/
def splitn3 (s sep : String) : List String :=
  let parts := splitOnStr s sep
  if parts.length ≤ 3 then parts
  else
    (parts.take 2) ++ [String.intercalate sep (parts.drop 2)]

/-- Model of `str::lines`: split on `\n` and strip one trailing `\r`
from each line.  Rust yields no final empty line for a trailing
newline; the callers below trim every line, so the extra empty string
produced here never changes a result. -/
def rustLines (s : String) : List String :=
  (splitOnStr s "\n").map (fun l =>
    match l.data.reverse with
    | '\r' :: rest => ⟨rest.reverse⟩
    | _ => l)

/-- Everything after the first occurrence of `key`, if `key` occurs;
models `s.find(key)` followed by the slice `&s[pos + key.len()..]`. -/
def afterFirst (s key : String) : Option String :=
  match splitOnStr s key with
  | [] => none
  | [_] => none
  | _ :: rest => some (String.intercalate key rest)

/-- Word character of the `regex` crate class `\w`. -/
def wordChar (c : Char) : Bool :=
  c.isAlphanum || c = '_'

/-! ## JSON well-formedness

`HookService::parse_hook_metadata` delegates to
`serde_json::from_str`, a third-party strict parser that is not part of
this repository.  `jsonValid` is an executable recursive-descent JSON
syntax checker modelling the aspect of `serde_json` this development
relies on: `from_str` fails on text that is not well-formed JSON (in
particular on the empty string).  Field decoding of well-formed input
is not modelled; no claim depends on decoded field values.  The number
grammar is slightly liberal (leading zeros are accepted), which only
makes the modelled parser fail less often than the real one.
-/

/-- Consumes a JSON string body after the opening quote. -/
def jsonStringRest : List Char → Option (List Char)
  | [] => none
  | '"' :: rest => some rest
  | '\\' :: _ :: rest => jsonStringRest rest
  | '\\' :: [] => none
  | _ :: rest => jsonStringRest rest

/-- Consumes one or more decimal digits. -/
def jsonDigits : List Char → Option (List Char)
  | c :: rest =>
    if c.isDigit then some (rest.dropWhile Char.isDigit) else none
  | [] => none

/-- Consumes a JSON number (optional sign, digits, optional fraction and
exponent). -/
def jsonNumberRest (cs : List Char) : Option (List Char) :=
  let cs := match cs with
    | '-' :: rest => rest
    | _ => cs
  match jsonDigits cs with
  | none => none
  | some cs =>
    let cs := match cs with
      | '.' :: rest =>
        match jsonDigits rest with
        | some cs2 => cs2
        | none => '.' :: rest
      | _ => cs
    match cs with
    | 'e' :: rest | 'E' :: rest =>
      let rest := match rest with
        | '+' :: r => r
        | '-' :: r => r
        | _ => rest
      match jsonDigits rest with
      | some cs2 => some cs2
      | none => none
    | _ => some cs

mutual

/-- Consumes one JSON value; returns the remaining input. -/
def jsonValueRest : Nat → List Char → Option (List Char)
  | 0, _ => none
  | fuel + 1, cs =>
    match cs.dropWhile (fun c => wsChar c) with
    | 'n' :: 'u' :: 'l' :: 'l' :: rest => some rest
    | 't' :: 'r' :: 'u' :: 'e' :: rest => some rest
    | 'f' :: 'a' :: 'l' :: 's' :: 'e' :: rest => some rest
    | '"' :: rest => jsonStringRest rest
    | '{' :: rest => jsonObjectRest fuel (rest.dropWhile (fun c => wsChar c))
    | '[' :: rest => jsonArrayRest fuel (rest.dropWhile (fun c => wsChar c))
    | c :: rest =>
      if c.isDigit || c = '-' then jsonNumberRest (c :: rest) else none
    | [] => none

/-- Consumes object members after `{` (leading whitespace stripped). -/
def jsonObjectRest : Nat → List Char → Option (List Char)
  | 0, _ => none
  | _ + 1, '}' :: rest => some rest
  | fuel + 1, cs => jsonMembersRest fuel cs

/-- Consumes a non-empty member list and the closing `}`. -/
def jsonMembersRest : Nat → List Char → Option (List Char)
  | 0, _ => none
  | fuel + 1, cs =>
    match cs with
    | '"' :: rest =>
      match jsonStringRest rest with
      | none => none
      | some rest =>
        match rest.dropWhile (fun c => wsChar c) with
        | ':' :: rest =>
          match jsonValueRest fuel rest with
          | none => none
          | some rest =>
            match rest.dropWhile (fun c => wsChar c) with
            | ',' :: rest => jsonMembersRest fuel (rest.dropWhile (fun c => wsChar c))
            | '}' :: rest => some rest
            | _ => none
        | _ => none
    | _ => none

/-- Consumes array elements after `[` (leading whitespace stripped). -/
def jsonArrayRest : Nat → List Char → Option (List Char)
  | 0, _ => none
  | _ + 1, ']' :: rest => some rest
  | fuel + 1, cs => jsonElementsRest fuel cs

/-- Consumes a non-empty element list and the closing `]`. -/
def jsonElementsRest : Nat → List Char → Option (List Char)
  | 0, _ => none
  | fuel + 1, cs =>
    match jsonValueRest fuel cs with
    | none => none
    | some rest =>
      match rest.dropWhile (fun c => wsChar c) with
      | ',' :: rest => jsonElementsRest fuel rest
      | ']' :: rest => some rest
      | _ => none

end

/-- The whole input is one JSON value with only trailing whitespace. -/
def jsonValid (s : String) : Bool :=
  match jsonValueRest (s.data.length + 1) s.data with
  | some rest => (rest.dropWhile (fun c => wsChar c)).isEmpty
  | none => false

/-! ## Metadata structures and parsers

From `services/command.rs` (`CommandMetadata`, `parse_command_metadata`,
`parse_yaml_fallback`), `services/agent.rs` (`AgentMetadata`,
`parse_agent_metadata`, `parse_yaml_fallback`) and `services/hook.rs`
(`HookFileMetadata`, `parse_hook_metadata`).  The strict `serde_yaml`
parse is a third-party library call; it is abstracted as an oracle
argument `yamlParse`, since every property proved below holds for every
possible behaviour of that oracle.
-/

/-- `CommandMetadata` from `services/command.rs`. -/
structure CommandMetadata where
  name : Option String
  description : Option String
  category : Option String
  allowed_tools : Option (List String)
  mcp_servers : Option (List String)
  personas : Option (List String)
deriving DecidableEq

/-- `CommandMetadata::default()`: every field `None`. -/
def CommandMetadata.defaultMeta : CommandMetadata :=
  ⟨none, none, none, none, none, none⟩

/-- `AgentMetadata` from `services/agent.rs`. -/
structure AgentMetadata where
  name : Option String
  description : Option String
  model : Option String
  tools : Option (List String)
deriving DecidableEq

/-- `AgentMetadata::default()`: every field `None`. -/
def AgentMetadata.defaultMeta : AgentMetadata :=
  ⟨none, none, none, none⟩

/-- One line-anchored simple field, modelling the regex
`(?m)^key\s*(.+?)$` applied by the fallback parsers: the first line that
starts with `key` and has at least one further character yields that
remainder trimmed. -/
def lineField (key : String) (yaml : String) : Option String :=
  (splitOnStr yaml "\n").findSome? (fun line =>
    if startsWithStr line key then
      let rest := dropStr line key.data.length
      if rest.data.isEmpty then none else some (trimStr rest)
    else none)

/-- The first (line-anchored) word after `key`, modelling the regex
`(?m)^key\s*(\w+)` used for the agent `model` field. -/
def lineWordField (key : String) (yaml : String) : Option String :=
  (splitOnStr yaml "\n").findSome? (fun line =>
    if startsWithStr line key then
      let rest := (dropStr line key.data.length).data.dropWhile wsChar
      let word := rest.takeWhile wordChar
      if word.isEmpty then none else some (trimStr ⟨word⟩)
    else none)

/-- The free-form `description:` extraction shared by both fallback
parsers: everything after the first `description:` up to the first line
that starts with one of the other known field keys, trimmed, with inner
lines trimmed and joined by single spaces. -/
def descField (patterns : List String) (yaml : String) : Option String :=
  match afterFirst yaml "description:" with
  | none => none
  | some after_key =>
    let ls := splitOnStr after_key "\n"
    let desc_value :=
      match ls.findIdx? (fun l => patterns.any (fun p => startsWithStr l p)) with
      | none => after_key
      | some k => String.intercalate "\n" (ls.take k)
    let desc_value := trimStr desc_value
    if desc_value.data.isEmpty then none
    else some (trimStr (String.intercalate " " ((rustLines desc_value).map trimStr)))

/-- Scans the block-list form of a tools field (`- Tool` lines),
stopping at the first non-empty line that is neither a list item nor a
comment. -/
def collectDashItems : List String → List String
  | [] => []
  | line :: rest =>
    let trimmed := trimStr line
    if startsWithStr trimmed "-" then
      let tool := trimStr (dropStr trimmed 1)
      if tool.data.isEmpty then collectDashItems rest
      else tool :: collectDashItems rest
    else if !trimmed.data.isEmpty && !startsWithStr trimmed "#" then []
    else collectDashItems rest

/-- The tools-list extraction shared by both fallback parsers: inline
comma-separated form on the same line, or a dash block list on the
following lines. -/
def toolsField (key : String) (yaml : String) : Option (List String) :=
  match afterFirst yaml key with
  | none => none
  | some after_key =>
    let first_line := (rustLines after_key).headD ""
    if (trimStr first_line).data.isEmpty then
      let tools := collectDashItems ((rustLines after_key).drop 1)
      if tools.isEmpty then none else some tools
    else
      let tools := ((splitOnStr first_line ",").map trimStr).filter
        (fun t => !t.data.isEmpty)
      if tools.isEmpty then none else some tools

/-- `CommandService::parse_yaml_fallback`: regex-based extraction of
`name`, `category`, `description` and `allowed_tools`. -/
def command_yaml_fallback (yaml : String) : CommandMetadata :=
  { name := lineField "name:" yaml
    description := descField
      ["name:", "category:", "allowed_tools:", "mcp_servers:", "personas:"] yaml
    category := lineField "category:" yaml
    allowed_tools := toolsField "allowed_tools:" yaml
    mcp_servers := none
    personas := none }

/-- `CommandService::parse_command_metadata`: strip the BOM, split at
most twice on `---`, and parse the front matter, falling back to the
pattern extractor when the strict parse fails.  Every branch returns
`Ok`. -/
def parse_command_metadata (yamlParse : String → Option CommandMetadata)
    (content : String) : Except String CommandMetadata :=
  let content : String := ⟨content.data.dropWhile (· = '\uFEFF')⟩
  let parts := splitn3 content "---"
  if parts.length < 3 then .ok CommandMetadata.defaultMeta
  else
    let front_matter := trimStr ((parts.drop 1).headD "")
    match yamlParse front_matter with
    | some meta => .ok meta
    | none => .ok (command_yaml_fallback front_matter)

/-- `AgentService::parse_yaml_fallback`: regex-based extraction of
`name`, `model`, `description` and `tools`. -/
def agent_yaml_fallback (yaml : String) : AgentMetadata :=
  { name := lineField "name:" yaml
    model := lineWordField "model:" yaml
    description := descField ["name:", "model:", "tools:", "color:"] yaml
    tools := toolsField "tools:" yaml }

/-- `AgentService::parse_agent_metadata`: requires a leading `---`,
finds the closing `\n---`, and parses the front matter with the same
two-stage strategy.  Every branch returns `Ok`. -/
def parse_agent_metadata (yamlParse : String → Option AgentMetadata)
    (content : String) : Except String AgentMetadata :=
  if !startsWithStr content "---" then .ok AgentMetadata.defaultMeta
  else
    let rest := dropStr content 3
    match splitOnStr rest "\n---" with
    | p0 :: _ :: _ =>
      let yaml_content := trimStr p0
      match yamlParse yaml_content with
      | some meta => .ok meta
      | none => .ok (agent_yaml_fallback yaml_content)
    | _ => .ok AgentMetadata.defaultMeta

/-- `HookRule.hooks` entry (`HookType` in `app_config`).  Modelled from
the spec: `app_config.rs` is not under `src/`; the hook file format in
the `services/hook.rs` module header documents command and prompt
entries. -/
inductive HookType where
  | command (cmd : String)
  | prompt (p : String)
deriving DecidableEq

/-- A hook rule: a matcher and its hook entries.  Modelled from the
spec (see `HookType`). -/
structure HookRule where
  matcher : String
  hooks : List HookType
deriving DecidableEq

/-- Hook event types handled by `services/hook.rs`. -/
inductive HookEventType where
  | preToolUse
  | postToolUse
  | permissionRequest
  | sessionEnd
deriving DecidableEq

/-- `HookFileMetadata` from `services/hook.rs`. -/
structure HookFileMetadata where
  name : Option String
  description : Option String
  event_type : Option HookEventType
  rules : List HookRule
  priority : Int
  enabled : Bool
deriving DecidableEq

/-- `HookFileMetadata::default()` together with the serde field
defaults (`priority = 100`, `enabled = true`). -/
def HookFileMetadata.defaultMeta : HookFileMetadata :=
  ⟨none, none, none, [], 100, true⟩

/-- Model of `serde_json::from_str::<HookFileMetadata>`: fails exactly
on input rejected by `jsonValid`; successful field decoding is not
modelled (no claim depends on the decoded values), so well-formed input
decodes to the serde default record. -/
def serde_json_hook_metadata (s : String) : Option HookFileMetadata :=
  if jsonValid s then some HookFileMetadata.defaultMeta else none

/-- `HookService::parse_hook_metadata`: a single strict
`serde_json::from_str` whose error is propagated, with no fallback
stage.  `jsonDecode` abstracts the serde decoder. -/
def parse_hook_metadata (jsonDecode : String → Option HookFileMetadata)
    (content : String) : Except String HookFileMetadata :=
  match jsonDecode content with
  | some meta => .ok meta
  | none => .error "JSON parse failed"

/-! ## Core data model

Record and enum types from `app_config` as used by the services and the
DAOs.  `app_config.rs` itself is not under `src/`; the field lists are
reconstructed from the column lists of `database/dao/commands.rs` and
the construction sites in `services/command.rs`, and the small helper
methods (`CommandApps::only`, `set_enabled_for`, `is_enabled_for`,
`InstallScope::from_db`/`to_db`) are modelled from the spec (per-app
enabled flags for the three client apps; scope is `Global` or
`Project(path)` stored as a string column plus an optional path).
-/

/-- The three client applications. -/
inductive AppType where
  | claude
  | codex
  | gemini
deriving DecidableEq

/-- Iteration order `[AppType::Claude, AppType::Codex, AppType::Gemini]`
used by every loop over applications. -/
def AppType.all : List AppType :=
  [.claude, .codex, .gemini]

/-- Per-app enabled flags (`CommandApps`). -/
structure CommandApps where
  claude : Bool
  codex : Bool
  gemini : Bool
deriving DecidableEq

/-- Modelled from the spec: `CommandApps::only(app)` enables exactly the
given application (install persists `apps={app:true}`). -/
def CommandApps.only (app : AppType) : CommandApps :=
  { claude := app = AppType.claude
    codex := app = AppType.codex
    gemini := app = AppType.gemini }

/-- Modelled from the spec: reads one per-app flag. -/
def CommandApps.is_enabled_for (apps : CommandApps) (app : AppType) : Bool :=
  match app with
  | .claude => apps.claude
  | .codex => apps.codex
  | .gemini => apps.gemini

/-- Modelled from the spec: sets one per-app flag. -/
def CommandApps.set_enabled_for (apps : CommandApps) (app : AppType)
    (enabled : Bool) : CommandApps :=
  match app with
  | .claude => { apps with claude := enabled }
  | .codex => { apps with codex := enabled }
  | .gemini => { apps with gemini := enabled }

/-- Installation scope. -/
inductive InstallScope where
  | global
  | project (path : String)
deriving DecidableEq

/-- Modelled from the spec: decodes the `scope` column (and
`project_path`) into an `InstallScope`; anything other than a project
scope with a path is `Global`. -/
def InstallScope.from_db (scope : String) (project_path : Option String) :
    InstallScope :=
  if scope = "project" then
    match project_path with
    | some p => .project p
    | none => .global
  else .global

/-- Modelled from the spec: encodes an `InstallScope` back into the two
columns. -/
def InstallScope.to_db : InstallScope → String × Option String
  | .global => ("global", none)
  | .project p => ("project", some p)

/-- `DiscoverableCommand` (fields read by `CommandService::install`). -/
structure DiscoverableCommand where
  key : String
  name : String
  description : String
  category : Option String
  repo_owner : String
  repo_name : String
  repo_branch : String
  readme_url : Option String
  source_path : Option String
deriving DecidableEq

/-- `InstalledCommand`, one row of the `commands` table.  The Rust
`namespace` field is called `nspace` here because `namespace` is a Lean
keyword; `extra_metadata` carries its serialized JSON form. -/
structure InstalledCommand where
  id : String
  name : String
  description : Option String
  nspace : String
  filename : String
  category : Option String
  allowed_tools : Option (List String)
  mcp_servers : Option (List String)
  personas : Option (List String)
  extra_metadata : Option String
  repo_owner : Option String
  repo_name : Option String
  repo_branch : Option String
  readme_url : Option String
  source_path : Option String
  apps : CommandApps
  file_hash : Option String
  installed_at : Int
  scope : String
  project_path : Option String
deriving DecidableEq

/-! ## Command service: paths, database and filesystem state

From `services/command.rs` and `database/dao/commands.rs`.  The state
gathers the three mutable stores the command service touches: the SSOT
tree, each per-app `commands` directory, and the project-level
`commands` directories, all as maps from relative path to file content;
plus the `commands` table as a list of rows.  Directory creation
(`create_dir_all`) and empty-namespace pruning in app directories have
no effect on any map and are not represented; local file reads and
writes are total on this state, failing exactly where the Rust code
checks for a missing file first.
-/

/-- `CommandService::id_to_relative_path`. -/
def id_to_relative_path (id : String) : String :=
  id ++ ".md"

/-- `CommandService::parse_id`: split at the last `/` into namespace and
filename. -/
def parse_id (id : String) : String × String :=
  match (splitOnStr id "/").reverse with
  | [] => ("", id)
  | [_] => ("", id)
  | last :: rest => (String.intercalate "/" rest.reverse, last)

/-- Mutable state of the command subsystem. -/
structure CmdState where
  ssot : String → Option String
  appFiles : AppType → String → Option String
  projFiles : String → String → Option String
  db : List InstalledCommand

/-- Updates one file of the SSOT tree. -/
def CmdState.writeSsot (st : CmdState) (p : String) (v : Option String) : CmdState :=
  { st with ssot := fun q => if q = p then v else st.ssot q }

/-- Updates one file of one app directory. -/
def CmdState.writeApp (st : CmdState) (a : AppType) (p : String)
    (v : Option String) : CmdState :=
  { st with appFiles := fun b q =>
      if b = a ∧ q = p then v else st.appFiles b q }

/-- Updates one file of one project directory. -/
def CmdState.writeProj (st : CmdState) (path p : String)
    (v : Option String) : CmdState :=
  { st with projFiles := fun path2 q =>
      if path2 = path ∧ q = p then v else st.projFiles path2 q }

/-- `Database::get_installed_command`: the row with the given id. -/
def get_installed_command (db : List InstalledCommand) (id : String) :
    Option InstalledCommand :=
  db.find? (fun c => c.id = id)

/-- `Database::save_command` (`INSERT OR REPLACE` keyed on `id`):
replaces the existing row or appends a new one. -/
def save_command (db : List InstalledCommand) (cmd : InstalledCommand) :
    List InstalledCommand :=
  if db.any (fun c => c.id = cmd.id) then
    db.map (fun c => if c.id = cmd.id then cmd else c)
  else db ++ [cmd]

/-- `Database::update_command_apps`. -/
def update_command_apps (db : List InstalledCommand) (id : String)
    (apps : CommandApps) : List InstalledCommand :=
  db.map (fun c => if c.id = id then { c with apps := apps } else c)

/-- `Database::update_command_scope`. -/
def update_command_scope (db : List InstalledCommand) (id : String)
    (scope : String) (project_path : Option String) : List InstalledCommand :=
  db.map (fun c =>
    if c.id = id then { c with scope := scope, project_path := project_path }
    else c)

/-- `Database::get_commands_by_namespace`. -/
def get_commands_by_namespace (db : List InstalledCommand) (ns : String) :
    List InstalledCommand :=
  db.filter (fun c => c.nspace = ns)

/-! ## Command service: file synchronization and lifecycle -/

/-- `CommandService::copy_to_app`: fails when the SSOT file is missing,
otherwise mirrors it byte-for-byte into the app directory. -/
def copy_to_app (st : CmdState) (id : String) (app : AppType) :
    Except String Unit × CmdState :=
  let rel := id_to_relative_path id
  match st.ssot rel with
  | none => (.error ("Command not in SSOT: " ++ id), st)
  | some content => (.ok (), st.writeApp app rel (some content))

/-- `CommandService::remove_from_app`: removes the app copy when it
exists; never fails in this state model (the only filesystem operations
are an existence test and a delete). -/
def remove_from_app (st : CmdState) (id : String) (app : AppType) :
    Except String Unit × CmdState :=
  let rel := id_to_relative_path id
  match st.appFiles app rel with
  | none => (.ok (), st)
  | some _ => (.ok (), st.writeApp app rel none)

/-- `CommandService::copy_to_project`. -/
def copy_to_project (st : CmdState) (id : String) (project_path : String) :
    Except String Unit × CmdState :=
  let rel := id_to_relative_path id
  match st.ssot rel with
  | none => (.error ("Command not in SSOT: " ++ id), st)
  | some content => (.ok (), st.writeProj project_path rel (some content))

/-- `CommandService::remove_from_project`. -/
def remove_from_project (st : CmdState) (id : String) (project_path : String) :
    Except String Unit × CmdState :=
  let rel := id_to_relative_path id
  match st.projFiles project_path rel with
  | none => (.ok (), st)
  | some _ => (.ok (), st.writeProj project_path rel none)

/-- `CommandService::toggle_app`: load the row, flip the flag in
memory, synchronize the file first, and only then write the flag to the
database, so a file-synchronization failure leaves the row untouched. -/
def toggle_app (st : CmdState) (id : String) (app : AppType)
    (enabled : Bool) : Except String Unit × CmdState :=
  match get_installed_command st.db id with
  | none => (.error ("Command not found: " ++ id), st)
  | some cmd =>
    let apps2 := cmd.apps.set_enabled_for app enabled
    let step := if enabled then copy_to_app st id app else remove_from_app st id app
    match step with
    | (.error e, st1) => (.error e, st1)
    | (.ok _, st1) => (.ok (), { st1 with db := update_command_apps st1.db id apps2 })

/-- One iteration of the `sync_all_to_apps` double loop: force-copy one
enabled (command, app) pair, counting successes and swallowing
failures. -/
def sync_one (acc : Nat × CmdState) (cmd : InstalledCommand) (app : AppType) :
    Nat × CmdState :=
  if cmd.apps.is_enabled_for app then
    match copy_to_app acc.2 cmd.id app with
    | (.ok _, st2) => (acc.1 + 1, st2)
    | (.error _, st2) => (acc.1, st2)
  else acc

/-- `CommandService::sync_all_to_apps`: for every row and every enabled
app, re-copy the SSOT file; per-pair failures are not propagated. -/
def sync_all_to_apps (st : CmdState) : Nat × CmdState :=
  st.db.foldl (fun acc cmd => AppType.all.foldl (fun acc2 a => sync_one acc2 cmd a) acc)
    (0, st)

/-- `CommandService::change_scope`.  The result carries the trace of
states after each filesystem or database mutation (with the initial
state first), which the temporal claim quantifies over. -/
def change_scope (st : CmdState) (id : String) (new_scope : InstallScope)
    (current_app : AppType) : Except String Unit × CmdState × List CmdState :=
  match get_installed_command st.db id with
  | none => (.error ("Command not found: " ++ id), st, [st])
  | some cmd =>
    let current_scope := InstallScope.from_db cmd.scope cmd.project_path
    if current_scope = new_scope then (.ok (), st, [st])
    else
      let removal : List CmdState × CmdState :=
        match current_scope with
        | .global =>
          let s1 := (remove_from_app st id .claude).2
          let s2 := (remove_from_app s1 id .codex).2
          let s3 := (remove_from_app s2 id .gemini).2
          ([s1, s2, s3], s3)
        | .project p =>
          let s1 := (remove_from_project st id p).2
          ([s1], s1)
      let st1 := removal.2
      let copyStep : Except String Unit × CmdState :=
        match new_scope with
        | .global => copy_to_app st1 id current_app
        | .project p => copy_to_project st1 id p
      match copyStep with
      | (.error e, st2) => (.error e, st2, st :: removal.1 ++ [st2])
      | (.ok _, st2) =>
        let dbPair := new_scope.to_db
        let st3 := { st2 with db := update_command_scope st2.db id dbPair.1 dbPair.2 }
        (.ok (), st3, st :: removal.1 ++ [st2, st3])

/-- `CommandService::install`.  Oracles: `download` is the result of
`download_command_content`, `blobSha` the result of
`GitHubApiService::get_file_blob_sha`, `yamlParse` the strict
`serde_yaml` front-matter parse, `hash` the SHA-256 hex digest
(`compute_hash`), and `now` the installation timestamp. -/
def install (st : CmdState) (command : DiscoverableCommand)
    (current_app : AppType) (download : Except String String)
    (blobSha : Except String String)
    (yamlParse : String → Option CommandMetadata)
    (hash : String → String) (now : Int) :
    Except String InstalledCommand × CmdState :=
  let rel := id_to_relative_path command.key
  let writeStep : Except String CmdState :=
    if (st.ssot rel).isSome then .ok st
    else
      match download with
      | .error e => .error e
      | .ok content => .ok (st.writeSsot rel (some content))
  match writeStep with
  | .error e => (.error e, st)
  | .ok st1 =>
    match st1.ssot rel with
    | none => (.error "read failed", st1)
    | some content =>
      match parse_command_metadata yamlParse content with
      | .error e => (.error e, st1)
      | .ok metadata =>
        let file_hash :=
          match command.source_path with
          | some _ =>
            match blobSha with
            | .ok sha => sha
            | .error _ => hash content
          | none => hash content
        let ns_file := parse_id command.key
        let installed_command : InstalledCommand :=
          { id := command.key
            name := metadata.name.getD command.name
            description := metadata.description.orElse (fun _ =>
              if command.description = "" then none else some command.description)
            nspace := ns_file.1
            filename := ns_file.2
            category := metadata.category.orElse (fun _ => command.category)
            allowed_tools := metadata.allowed_tools
            mcp_servers := metadata.mcp_servers
            personas := metadata.personas
            extra_metadata := none
            repo_owner := some command.repo_owner
            repo_name := some command.repo_name
            repo_branch := some command.repo_branch
            readme_url := command.readme_url
            source_path := command.source_path
            apps := CommandApps.only current_app
            file_hash := some file_hash
            installed_at := now
            scope := "global"
            project_path := none }
        let st2 := { st1 with db := save_command st1.db installed_command }
        match copy_to_app st2 command.key current_app with
        | (.error e, st3) => (.error e, st3)
        | (.ok _, st3) => (.ok installed_command, st3)

/-- Conflict resolutions. -/
inductive ConflictResolution where
  | keepSsot
  | keepApp
deriving DecidableEq

/-- `CommandService::resolve_conflict`.  `KeepSsot` overwrites the app
copy from SSOT; `KeepApp` overwrites SSOT from the app copy, re-parses
the metadata, recomputes the local hash and saves the updated row,
touching only the metadata fields and `file_hash`. -/
def resolve_conflict (st : CmdState) (id : String) (app : AppType)
    (resolution : ConflictResolution)
    (yamlParse : String → Option CommandMetadata)
    (hash : String → String) : Except String Unit × CmdState :=
  let rel := id_to_relative_path id
  match resolution with
  | .keepSsot =>
    match st.ssot rel with
    | none => (.ok (), st)
    | some content => (.ok (), st.writeApp app rel (some content))
  | .keepApp =>
    match st.appFiles app rel with
    | none => (.ok (), st)
    | some appContent =>
      let st1 := st.writeSsot rel (some appContent)
      match parse_command_metadata yamlParse appContent with
      | .error e => (.error e, st1)
      | .ok metadata =>
        let file_hash := hash appContent
        match get_installed_command st1.db id with
        | none => (.ok (), st1)
        | some command =>
          let command2 :=
            { command with
              name := metadata.name.getD command.name
              description := metadata.description.orElse (fun _ => command.description)
              category := metadata.category.orElse (fun _ => command.category)
              allowed_tools := metadata.allowed_tools.orElse (fun _ => command.allowed_tools)
              mcp_servers := metadata.mcp_servers.orElse (fun _ => command.mcp_servers)
              personas := metadata.personas.orElse (fun _ => command.personas)
              file_hash := some file_hash }
          (.ok (), { st1 with db := save_command st1.db command2 })

/-- Observable state of one namespace directory on disk: missing, an
existing empty directory, or an existing directory that still holds
entries (tracked files or strays). -/
inductive DirState where
  | absent
  | empty
  | nonempty
deriving DecidableEq

/-- `CommandService::delete_namespace`: refuse the root namespace,
refuse while any row references the namespace, then `fs::remove_dir`
the SSOT namespace directory (a non-recursive removal that fails on a
non-empty directory).  The best-effort removals inside app directories
swallow their errors and cannot affect the result, so they are not
represented. -/
def delete_namespace (db : List InstalledCommand) (ns : String)
    (dir : DirState) : Except String Unit :=
  if ns = "" then .error "cannot delete root namespace"
  else if !(get_commands_by_namespace db ns).isEmpty then
    .error ("Conflict: namespace " ++ ns ++ " is not empty")
  else
    match dir with
    | .absent => .ok ()
    | .empty => .ok ()
    | .nonempty => .error "LocalIO: directory not empty"

/-- The `retain`-with-`seen`-set loop shared verbatim by the three
`deduplicate_*` functions, parameterized by the key each kind uses. -/
def retainFirstBy (f : α → String) (seen : List String) : List α → List α
  | [] => []
  | c :: rest =>
    if f c ∈ seen then retainFirstBy f seen rest
    else c :: retainFirstBy f (f c :: seen) rest

/-- `CommandService::deduplicate_commands`: keep the first occurrence
of each lowercased key. -/
def deduplicate_commands (commands : List DiscoverableCommand) :
    List DiscoverableCommand :=
  retainFirstBy (fun c => lowerStr c.key) [] commands

/-- The tail of `CommandService::discover_available`: deduplicate, then
stable-sort by lowercased name (`sort_by` on `name.to_lowercase()`). -/
def discover_finalize_commands (commands : List DiscoverableCommand) :
    List DiscoverableCommand :=
  (deduplicate_commands commands).mergeSort
    (fun a b => decide ((lowerStr a.name).data ≤ (lowerStr b.name).data))

/-! ## Hook service

From `services/hook.rs` and `database/dao/hooks.rs`.  Hooks are the
aggregate kind: the SSOT still holds one JSON file per hook, but the
projection is the `hooks` key of each app settings document, fully
rebuilt from the database by `generate_app_hooks_config` and rewritten
by `sync_to_app`.  Only that key is modelled of the settings document.
-/

/-- Event key written into the generated config. -/
def eventKey : HookEventType → String
  | .preToolUse => "PreToolUse"
  | .postToolUse => "PostToolUse"
  | .permissionRequest => "PermissionRequest"
  | .sessionEnd => "SessionEnd"

/-- `DiscoverableHook` (fields read by `HookService::install`). -/
structure DiscoverableHook where
  key : String
  name : String
  description : Option String
  event_type : HookEventType
  rules : List HookRule
  repo_owner : String
  repo_name : String
  repo_branch : String
  readme_url : Option String
  source_path : Option String
deriving DecidableEq

/-- `InstalledHook`, one row of the `hooks` table (`nspace` stands for
the Rust `namespace` field). -/
structure InstalledHook where
  id : String
  name : String
  description : Option String
  nspace : String
  filename : String
  event_type : HookEventType
  rules : List HookRule
  enabled : Bool
  priority : Int
  repo_owner : Option String
  repo_name : Option String
  repo_branch : Option String
  readme_url : Option String
  source_path : Option String
  apps : CommandApps
  file_hash : Option String
  installed_at : Int
  scope : String
  project_path : Option String
deriving DecidableEq

/-- `HookService::id_to_relative_path` (hooks use `.json`). -/
def hook_id_to_relative_path (id : String) : String :=
  id ++ ".json"

/-- Mutable state of the hook subsystem: the SSOT tree, the `hooks`
table (in the priority order the DAO returns), and the `hooks` key of
each app settings document (a flat list of (event key, rule) entries;
the real map from event key to entry array carries the same
information). -/
structure HookState where
  ssot : String → Option String
  db : List InstalledHook
  settingsHooks : AppType → Option (List (String × HookRule))

/-- `Database::get_installed_hook`. -/
def get_installed_hook (db : List InstalledHook) (id : String) :
    Option InstalledHook :=
  db.find? (fun h => h.id = id)

/-- `Database::save_hook` (`INSERT OR REPLACE` keyed on `id`). -/
def save_hook (db : List InstalledHook) (hook : InstalledHook) :
    List InstalledHook :=
  if db.any (fun h => h.id = hook.id) then
    db.map (fun h => if h.id = hook.id then hook else h)
  else db ++ [hook]

/-- `Database::get_hooks_by_namespace`. -/
def get_hooks_by_namespace (db : List InstalledHook) (ns : String) :
    List InstalledHook :=
  db.filter (fun h => h.nspace = ns)

/-- `HookService::generate_app_hooks_config`: all rules of every hook
that is enabled for the app and globally enabled, tagged with their
event key, in database order. -/
def generate_app_hooks_config (db : List InstalledHook) (app : AppType) :
    List (String × HookRule) :=
  (db.filter (fun h => h.apps.is_enabled_for app && h.enabled)).flatMap
    (fun h => h.rules.map (fun r => (eventKey h.event_type, r)))

/-- `HookService::sync_to_app`: rebuild the managed config and replace
the `hooks` key of the app settings document with it, returning the
entry count. -/
def hook_sync_to_app (st : HookState) (app : AppType) :
    Except String Nat × HookState :=
  let managed := generate_app_hooks_config st.db app
  (.ok managed.length,
    { st with settingsHooks := fun a =>
        if a = app then some managed else st.settingsHooks a })

/-- `HookService::install`: always download, always write the SSOT file
(no existence check, unlike the command kind), then parse, hash, save
the row and sync the settings document of the invoking app.  Oracles as
for `install`. -/
def hook_install (st : HookState) (hook : DiscoverableHook)
    (current_app : AppType) (download : Except String String)
    (blobSha : Except String String)
    (jsonDecode : String → Option HookFileMetadata)
    (hash : String → String) (now : Int) :
    Except String InstalledHook × HookState :=
  match download with
  | .error e => (.error e, st)
  | .ok content =>
    let rel := hook_id_to_relative_path hook.key
    let st1 := { st with ssot := fun q => if q = rel then some content else st.ssot q }
    match parse_hook_metadata jsonDecode content with
    | .error e => (.error e, st1)
    | .ok metadata =>
      let file_hash :=
        match hook.source_path with
        | some _ =>
          match blobSha with
          | .ok sha => sha
          | .error _ => hash content
        | none => hash content
      let ns_file := parse_id hook.key
      let installed_hook : InstalledHook :=
        { id := hook.key
          name := metadata.name.getD hook.name
          description := metadata.description.orElse (fun _ => hook.description)
          nspace := ns_file.1
          filename := ns_file.2
          event_type := metadata.event_type.getD hook.event_type
          rules := if metadata.rules.isEmpty then hook.rules else metadata.rules
          enabled := metadata.enabled
          priority := metadata.priority
          repo_owner := some hook.repo_owner
          repo_name := some hook.repo_name
          repo_branch := some hook.repo_branch
          readme_url := hook.readme_url
          source_path := hook.source_path
          apps := CommandApps.only current_app
          file_hash := some file_hash
          installed_at := now
          scope := "global"
          project_path := none }
      let st2 := { st1 with db := save_hook st1.db installed_hook }
      match hook_sync_to_app st2 current_app with
      | (.error e, st3) => (.error e, st3)
      | (.ok _, st3) => (.ok installed_hook, st3)

/-- `HookService::delete_namespace`: same guard as the command kind
(hooks have no per-app directories at all). -/
def hook_delete_namespace (db : List InstalledHook) (ns : String)
    (dir : DirState) : Except String Unit :=
  if ns = "" then .error "cannot delete root namespace"
  else if !(get_hooks_by_namespace db ns).isEmpty then
    .error ("Conflict: namespace " ++ ns ++ " is not empty")
  else
    match dir with
    | .absent => .ok ()
    | .empty => .ok ()
    | .nonempty => .error "LocalIO: directory not empty"

/-- `HookService::deduplicate_hooks`: keep the first occurrence of each
key, compared exactly (no case folding, unlike the command kind). -/
def deduplicate_hooks (hooks : List DiscoverableHook) :
    List DiscoverableHook :=
  retainFirstBy (fun h => h.key) [] hooks

/-- The tail of `HookService::discover_available`: deduplicate, then
stable-sort by lowercased name. -/
def discover_finalize_hooks (hooks : List DiscoverableHook) :
    List DiscoverableHook :=
  (deduplicate_hooks hooks).mergeSort
    (fun a b => decide ((lowerStr a.name).data ≤ (lowerStr b.name).data))

/-! ## Agent service

From `services/agent.rs` and `database/dao/agents.rs`.  Agents are
file-backed like commands; only the operations the claims need are
embedded: `install` (which, like the hook kind, writes the downloaded
content unconditionally and hashes locally) and the discovery
deduplication.
-/

/-- `DiscoverableAgent` (fields read by `AgentService::install`). -/
structure DiscoverableAgent where
  key : String
  name : String
  description : String
  model : Option String
  tools : Option (List String)
  repo_owner : String
  repo_name : String
  repo_branch : String
  readme_url : Option String
  source_path : Option String
deriving DecidableEq

/-- `InstalledAgent`, one row of the `agents` table. -/
structure InstalledAgent where
  id : String
  name : String
  description : Option String
  nspace : String
  filename : String
  model : Option String
  tools : Option (List String)
  extra_metadata : Option String
  repo_owner : Option String
  repo_name : Option String
  repo_branch : Option String
  readme_url : Option String
  source_path : Option String
  apps : CommandApps
  file_hash : Option String
  installed_at : Int
deriving DecidableEq

/-- Mutable state of the agent subsystem. -/
structure AgentState where
  ssot : String → Option String
  appFiles : AppType → String → Option String
  db : List InstalledAgent

/-- `Database::save_agent` (`INSERT OR REPLACE` keyed on `id`). -/
def save_agent (db : List InstalledAgent) (agent : InstalledAgent) :
    List InstalledAgent :=
  if db.any (fun a => a.id = agent.id) then
    db.map (fun a => if a.id = agent.id then agent else a)
  else db ++ [agent]

/-- `AgentService::copy_to_app`. -/
def agent_copy_to_app (st : AgentState) (id : String) (app : AppType) :
    Except String Unit × AgentState :=
  let rel := id_to_relative_path id
  match st.ssot rel with
  | none => (.error ("Agent not in SSOT: " ++ id), st)
  | some content =>
    (.ok (), { st with appFiles := fun b q =>
        if b = app ∧ q = rel then some content else st.appFiles b q })

/-- `AgentService::install`: always download, always write the SSOT
file, parse the front matter, hash locally (`compute_hash`, no blob SHA
lookup), save the row, and copy into the invoking app directory. -/
def agent_install (st : AgentState) (agent : DiscoverableAgent)
    (current_app : AppType) (download : Except String String)
    (yamlParse : String → Option AgentMetadata)
    (hash : String → String) (now : Int) :
    Except String InstalledAgent × AgentState :=
  match download with
  | .error e => (.error e, st)
  | .ok content =>
    let rel := id_to_relative_path agent.key
    let st1 := { st with ssot := fun q => if q = rel then some content else st.ssot q }
    match parse_agent_metadata yamlParse content with
    | .error e => (.error e, st1)
    | .ok metadata =>
      let file_hash := hash content
      let ns_file := parse_id agent.key
      let installed_agent : InstalledAgent :=
        { id := agent.key
          name := metadata.name.getD agent.name
          description := metadata.description.orElse (fun _ =>
            if agent.description = "" then none else some agent.description)
          nspace := ns_file.1
          filename := ns_file.2
          model := metadata.model.orElse (fun _ => agent.model)
          tools := metadata.tools.orElse (fun _ => agent.tools)
          extra_metadata := none
          repo_owner := some agent.repo_owner
          repo_name := some agent.repo_name
          repo_branch := some agent.repo_branch
          readme_url := agent.readme_url
          source_path := agent.source_path
          apps := CommandApps.only current_app
          file_hash := some file_hash
          installed_at := now }
      let st2 := { st1 with db := save_agent st1.db installed_agent }
      match agent_copy_to_app st2 agent.key current_app with
      | (.error e, st3) => (.error e, st3)
      | (.ok _, st3) => (.ok installed_agent, st3)

/-- `AgentService::deduplicate_agents`: keep the first occurrence of
each key, compared exactly. -/
def deduplicate_agents (agents : List DiscoverableAgent) :
    List DiscoverableAgent :=
  retainFirstBy (fun a => a.key) [] agents

/-- The tail of `AgentService::discover_available`: deduplicate, then
stable-sort by lowercased name. -/
def discover_finalize_agents (agents : List DiscoverableAgent) :
    List DiscoverableAgent :=
  (deduplicate_agents agents).mergeSort
    (fun a b => decide ((lowerStr a.name).data ≤ (lowerStr b.name).data))

/-! ## Update checking

From `services/update.rs` and the error type of
`services/github_api.rs`.  Each remote call is an oracle argument: the
function receives the value the GitHub API would return for the
arguments the Rust code passes.
-/

/-- Rate-limit payload of `GitHubApiError::RateLimited`. -/
structure RateLimitInfo where
  remaining : Int
  limit : Int
  reset_at : Int
deriving DecidableEq

/-- `GitHubApiError` from `services/github_api.rs`. -/
inductive GitHubApiError where
  | rateLimited (info : RateLimitInfo)
  | notFound
  | networkError (msg : String)
  | unauthorized
  | other (msg : String)
deriving DecidableEq

/-- Display of a `GitHubApiError` (`e.to_string()`); the exact wording
never matters, only which results carry `error = Some _`. -/
def GitHubApiError.display : GitHubApiError → String
  | .rateLimited _ => "GitHub API rate limited"
  | .notFound => "resource not found"
  | .networkError msg => "network error: " ++ msg
  | .unauthorized => "authentication failed"
  | .other msg => msg

/-- `UpdateCheckResult` from `services/github_api.rs`. -/
structure UpdateCheckResult where
  id : String
  has_update : Bool
  new_hash : Option String
  commit_message : Option String
  updated_at : Option Int
  error : Option String
  remote_deleted : Bool
deriving DecidableEq

/-- `InstalledSkill` fields read by `check_skill_update`.  The record
type lives in `app_config`, outside `src/`; the three repository
columns are written together by skill installation and unwrapped
together at lines 131-133 of `services/update.rs`, so they are modelled
as one optional (owner, name, branch) triple. -/
structure InstalledSkill where
  id : String
  directory : String
  repo : Option (String × String × String)
  file_hash : Option String
deriving DecidableEq

/-- Remote oracles used by one `check_skill_update` call:
`get_directory_hash owner repo branch path`, `get_default_branch owner
repo` and `get_latest_commit owner repo branch path`. -/
structure SkillUpdateOracle where
  directoryHash : String → String → String → String → Except GitHubApiError String
  defaultBranch : String → String → Except GitHubApiError String
  latestCommit : String → String → String → String → Except GitHubApiError (String × Int)

/-- Builds the result for a successfully fetched remote hash. -/
def skillHashResult (skill : InstalledSkill) (o : SkillUpdateOracle)
    (owner repo branch source_path new_hash : String) : UpdateCheckResult :=
  let has_update := skill.file_hash ≠ some new_hash
  let commit :=
    if has_update then
      match o.latestCommit owner repo branch source_path with
      | .ok mt => (some mt.1, some mt.2)
      | .error _ => (none, none)
    else (none, none)
  { id := skill.id
    has_update := has_update
    new_hash := if has_update then some new_hash else none
    commit_message := commit.1
    updated_at := commit.2
    error := none
    remote_deleted := false }

/-- `UpdateService::check_skill_update`: compare the stored hash with
the remote directory hash; on `NotFound` against the stored branch,
fetch the default branch and, when it differs, retry once against it;
only a second `NotFound` (or an unusable default branch) yields
`remote_deleted = true`. -/
def check_skill_update (skill : InstalledSkill) (o : SkillUpdateOracle) :
    UpdateCheckResult :=
  match skill.repo with
  | none =>
    { id := skill.id, has_update := false, new_hash := none
      commit_message := none, updated_at := none
      error := some "local skill does not support update checks"
      remote_deleted := false }
  | some (owner, repo, branch) =>
    let source_path := ((splitOnStr skill.id ":").drop 1).headD skill.directory
    match o.directoryHash owner repo branch source_path with
    | .ok new_hash => skillHashResult skill o owner repo branch source_path new_hash
    | .error .notFound =>
      match o.defaultBranch owner repo with
      | .ok default_branch =>
        if default_branch ≠ branch then
          match o.directoryHash owner repo default_branch source_path with
          | .ok new_hash =>
            skillHashResult skill o owner repo default_branch source_path new_hash
          | .error .notFound =>
            { id := skill.id, has_update := false, new_hash := none
              commit_message := none, updated_at := none, error := none
              remote_deleted := true }
          | .error e =>
            { id := skill.id, has_update := false, new_hash := none
              commit_message := none, updated_at := none
              error := some e.display, remote_deleted := false }
        else
          { id := skill.id, has_update := false, new_hash := none
            commit_message := none, updated_at := none, error := none
            remote_deleted := true }
      | .error .notFound =>
        { id := skill.id, has_update := false, new_hash := none
          commit_message := none, updated_at := none, error := none
          remote_deleted := true }
      | .error e =>
        { id := skill.id, has_update := false, new_hash := none
          commit_message := none, updated_at := none
          error := some e.display, remote_deleted := false }
    | .error e =>
      { id := skill.id, has_update := false, new_hash := none
        commit_message := none, updated_at := none
        error := some e.display, remote_deleted := false }

/-- Remote oracles used by one `check_file_resource_update` call:
`get_file_blob_sha owner repo branch path` (SHA and size) and
`get_latest_commit`. -/
structure FileUpdateOracle where
  fileBlobSha : String → String → String → String → Except GitHubApiError (String × Nat)
  latestCommit : String → String → String → String → Except GitHubApiError (String × Int)

/-- `UpdateService::check_file_resource_update` (Commands, Hooks and
Agents): compare the stored hash with the remote blob SHA; a `NotFound`
against the stored branch immediately yields `remote_deleted = true`,
with no default-branch retry. -/
def check_file_resource_update (id : String)
    (repo_owner repo_name repo_branch source_path current_hash : Option String)
    (o : FileUpdateOracle) : UpdateCheckResult :=
  if repo_owner.isNone ∨ source_path.isNone then
    { id := id, has_update := false, new_hash := none
      commit_message := none, updated_at := none
      error := some "local resource does not support update checks"
      remote_deleted := false }
  else
    let owner := repo_owner.getD ""
    let repo := repo_name.getD "unknown"
    let branch := repo_branch.getD "main"
    let path := source_path.getD ""
    match o.fileBlobSha owner repo branch path with
    | .ok shaSize =>
      let new_hash := shaSize.1
      let has_update := current_hash ≠ some new_hash
      let commit :=
        if has_update then
          match o.latestCommit owner repo branch path with
          | .ok mt => (some mt.1, some mt.2)
          | .error _ => (none, none)
        else (none, none)
      { id := id
        has_update := has_update
        new_hash := if has_update then some new_hash else none
        commit_message := commit.1
        updated_at := commit.2
        error := none
        remote_deleted := false }
    | .error .notFound =>
      { id := id, has_update := false, new_hash := none
        commit_message := none, updated_at := none, error := none
        remote_deleted := true }
    | .error e =>
      { id := id, has_update := false, new_hash := none
        commit_message := none, updated_at := none
        error := some e.display, remote_deleted := false }

/-! ## Shared fixtures

Concrete records used by the witnesses and counterexamples below
(Scenario A of the spec: command `sc/agent` from `acme/commands@main`).
-/

/-- A concrete installed command row. -/
def sampleCmd : InstalledCommand :=
  { id := "sc/agent", name := "agent", description := none, nspace := "sc"
    filename := "agent", category := none, allowed_tools := none
    mcp_servers := none, personas := none, extra_metadata := none
    repo_owner := some "acme", repo_name := some "commands"
    repo_branch := some "main", readme_url := none
    source_path := some "commands/sc/agent.md"
    apps := ⟨true, false, false⟩, file_hash := some "h", installed_at := 0
    scope := "global", project_path := none }

/-- A concrete discoverable command with the same key. -/
def sampleDisc : DiscoverableCommand :=
  { key := "sc/agent", name := "agent", description := "", category := none
    repo_owner := "acme", repo_name := "commands", repo_branch := "main"
    readme_url := none, source_path := some "commands/sc/agent.md" }

/-- A command state in which `sc/agent` is installed with its SSOT file
present and enabled for Claude only. -/
def sampleSt : CmdState :=
  { ssot := fun p => if p = "sc/agent.md" then some "body" else none
    appFiles := fun _ _ => none
    projFiles := fun _ _ => none
    db := [sampleCmd] }

/-- Like `sampleSt` but with the SSOT file missing. -/
def sampleStNoSsot : CmdState :=
  { ssot := fun _ => none
    appFiles := fun _ _ => none
    projFiles := fun _ _ => none
    db := [sampleCmd] }

/-! ## C10: a failed toggle leaves the stored flags untouched -/

/-- C10.  For every installed command id and app, if `toggle_app`
returns an error because the file copy or removal step fails (for
example the SSOT file is missing), the per-app enabled flag stored in
the database is left unchanged: the file synchronization runs before
the database update, so every error path returns with the original
`db` component. -/
theorem toggle_app_error_preserves_db (st : CmdState) (id : String)
    (app : AppType) (enabled : Bool)
    (h : ∃ e, (toggle_app st id app enabled).1 = .error e) :
    ((toggle_app st id app enabled).2).db = st.db := by
  obtain ⟨e, he⟩ := h
  cases hg : get_installed_command st.db id with
  | none => simp [toggle_app, hg]
  | some cmd =>
    cases enabled with
    | true =>
      cases hs : st.ssot (id_to_relative_path id) with
      | none => simp [toggle_app, copy_to_app, hg, hs]
      | some c => simp [toggle_app, copy_to_app, hg, hs] at he
    | false =>
      cases hs : st.appFiles app (id_to_relative_path id) with
      | none => simp [toggle_app, remove_from_app, hg, hs] at he
      | some c => simp [toggle_app, remove_from_app, hg, hs] at he

/-- Witness for C10: toggling `sc/agent` on for Codex fails when the
SSOT file is missing, and the database rows are exactly the ones from
before the call. -/
theorem toggle_app_error_preserves_db_witness :
    (∃ e, (toggle_app sampleStNoSsot "sc/agent" .codex true).1 = .error e) ∧
    ((toggle_app sampleStNoSsot "sc/agent" .codex true).2).db = sampleStNoSsot.db :=
  ⟨⟨"Command not in SSOT: sc/agent", rfl⟩,
    toggle_app_error_preserves_db sampleStNoSsot "sc/agent" .codex true
      ⟨"Command not in SSOT: sc/agent", rfl⟩⟩

/-- Every branch of the command metadata parse returns `Ok`. -/
theorem parse_command_metadata_isOk (yamlParse : String → Option CommandMetadata)
    (content : String) :
    ∃ m, parse_command_metadata yamlParse content = .ok m := by
  unfold parse_command_metadata
  dsimp only
  split
  · exact ⟨_, rfl⟩
  · split <;> exact ⟨_, rfl⟩

/-- Every branch of the agent metadata parse returns `Ok`. -/
theorem parse_agent_metadata_isOk (yamlParse : String → Option AgentMetadata)
    (content : String) :
    ∃ m, parse_agent_metadata yamlParse content = .ok m := by
  unfold parse_agent_metadata
  dsimp only
  split
  · exact ⟨_, rfl⟩
  · split
    · split <;> exact ⟨_, rfl⟩
    · exact ⟨_, rfl⟩

/-! ## C9: metadata parsing and the lenient fallback -/

/-- Counterexample for C9.  The claim says metadata parsing never
raises for any input text; hook metadata parsing
(`HookService::parse_hook_metadata`) is a single strict
`serde_json::from_str` with no fallback stage, and on the empty string
(not well-formed JSON) it returns an error. -/
theorem hook_parse_raises_counterexample :
    parse_hook_metadata serde_json_hook_metadata "" = .error "JSON parse failed" :=
  rfl

/-- C9 (amended).  Command and Agent metadata parsing never raise, for
every behaviour of the strict YAML parse: a failed strict parse falls
back to the deterministic pattern extractor over the same text.  Hook
metadata parsing has no fallback: whenever the strict JSON decode
fails, and in particular on any text the JSON grammar rejects, it
returns an error. -/
theorem metadata_parse_two_stage_amended :
    (∀ (yamlParse : String → Option CommandMetadata) (content : String),
      ∃ m, parse_command_metadata yamlParse content = .ok m) ∧
    (∀ (yamlParse : String → Option AgentMetadata) (content : String),
      ∃ m, parse_agent_metadata yamlParse content = .ok m) ∧
    (∀ (jsonDecode : String → Option HookFileMetadata) (content : String),
      jsonDecode content = none →
      parse_hook_metadata jsonDecode content = .error "JSON parse failed") ∧
    (∀ content : String, jsonValid content = false →
      parse_hook_metadata serde_json_hook_metadata content = .error "JSON parse failed") := by
  refine ⟨parse_command_metadata_isOk, parse_agent_metadata_isOk, ?_, ?_⟩
  · intro jsonDecode content h
    unfold parse_hook_metadata
    rw [h]
  · intro content h
    unfold parse_hook_metadata serde_json_hook_metadata
    rw [h]
    simp

/-- Witness for C9 (amended): each conjunct applied at a concrete
input. -/
theorem metadata_parse_two_stage_amended_witness :
    (∃ m, parse_command_metadata (fun _ => none) "---\nname: a\n---\nbody" = .ok m) ∧
    (∃ m, parse_agent_metadata (fun _ => none) "---\nname: a\n---\nbody" = .ok m) ∧
    (parse_hook_metadata (fun _ => none) "x" = .error "JSON parse failed") ∧
    (parse_hook_metadata serde_json_hook_metadata "nope" = .error "JSON parse failed") :=
  ⟨metadata_parse_two_stage_amended.1 (fun _ => none) "---\nname: a\n---\nbody",
    metadata_parse_two_stage_amended.2.1 (fun _ => none) "---\nname: a\n---\nbody",
    metadata_parse_two_stage_amended.2.2.1 (fun _ => none) "x" rfl,
    metadata_parse_two_stage_amended.2.2.2 "nope" (by decide)⟩

/-! ## C7: the namespace deletion guard -/

/-- Counterexample for C7.  With an empty database no installed
resource references `ns`, yet `delete_namespace` still fails when the
namespace directory on disk is non-empty (stray entries that no row
tracks), because `fs::remove_dir` is non-recursive. -/
theorem delete_namespace_stray_dir_counterexample :
    (get_commands_by_namespace [] "ns").isEmpty = true ∧
    delete_namespace [] "ns" .nonempty = .error "LocalIO: directory not empty" :=
  ⟨rfl, rfl⟩

/-- C7 (amended).  For every non-empty namespace name,
`delete_namespace` (commands and hooks alike) fails whenever at least
one installed resource still references the namespace, and succeeds
once no installed resource references it, provided the SSOT namespace
directory on disk is empty or already absent. -/
theorem delete_namespace_guard_amended :
    (∀ (db : List InstalledCommand) (ns : String) (dir : DirState)
      (cmd : InstalledCommand), cmd ∈ db → cmd.nspace = ns →
      ∃ e, delete_namespace db ns dir = .error e) ∧
    (∀ (db : List InstalledCommand) (ns : String) (dir : DirState),
      ns ≠ "" → (get_commands_by_namespace db ns).isEmpty → dir ≠ .nonempty →
      delete_namespace db ns dir = .ok ()) ∧
    (∀ (db : List InstalledHook) (ns : String) (dir : DirState)
      (hook : InstalledHook), hook ∈ db → hook.nspace = ns →
      ∃ e, hook_delete_namespace db ns dir = .error e) ∧
    (∀ (db : List InstalledHook) (ns : String) (dir : DirState),
      ns ≠ "" → (get_hooks_by_namespace db ns).isEmpty → dir ≠ .nonempty →
      hook_delete_namespace db ns dir = .ok ()) := by
  refine ⟨?_, ?_, ?_, ?_⟩
  · intro db ns dir cmd hmem hns
    unfold delete_namespace
    by_cases h0 : ns = ""
    · simp [h0]
    · have hne : ¬(get_commands_by_namespace db ns).isEmpty = true := by
        simp only [List.isEmpty_iff, get_commands_by_namespace]
        intro hempty
        have : cmd ∈ db.filter (fun c => decide (c.nspace = ns)) :=
          List.mem_filter.mpr ⟨hmem, by simp [hns]⟩
        simp [hempty] at this
      simp [h0, hne]
  · intro db ns dir h0 hempty hdir
    unfold delete_namespace
    cases dir <;> simp_all
  · intro db ns dir hook hmem hns
    unfold hook_delete_namespace
    by_cases h0 : ns = ""
    · simp [h0]
    · have hne : ¬(get_hooks_by_namespace db ns).isEmpty = true := by
        simp only [List.isEmpty_iff, get_hooks_by_namespace]
        intro hempty
        have : hook ∈ db.filter (fun h => decide (h.nspace = ns)) :=
          List.mem_filter.mpr ⟨hmem, by simp [hns]⟩
        simp [hempty] at this
      simp [h0, hne]
  · intro db ns dir h0 hempty hdir
    unfold hook_delete_namespace
    cases dir <;> simp_all

/-- Witness for C7 (amended): deleting `sc` fails while `sc/agent` is
installed, and succeeds on an empty database with an empty directory;
likewise for the hook kind with an absent directory. -/
theorem delete_namespace_guard_amended_witness :
    (∃ e, delete_namespace [sampleCmd] "sc" .empty = .error e) ∧
    delete_namespace [] "sc" .empty = .ok () ∧
    (∃ e, hook_delete_namespace [] "" .empty = .error e) ∧
    hook_delete_namespace [] "sc" .absent = .ok () :=
  ⟨delete_namespace_guard_amended.1 [sampleCmd] "sc" .empty sampleCmd
      (List.mem_singleton.mpr rfl) rfl,
    delete_namespace_guard_amended.2.1 [] "sc" .empty (by decide) rfl
      (by decide),
    ⟨"cannot delete root namespace", rfl⟩,
    delete_namespace_guard_amended.2.2.2 [] "sc" .absent (by decide) rfl
      (by decide)⟩

/-! ## C3: the default-branch retry on not-found -/

/-- A file-resource oracle whose stored branch `main` answers not-found
while every other branch (the default branch included) has the blob. -/
def fileOracleCE : FileUpdateOracle :=
  { fileBlobSha := fun _ _ branch _ =>
      if branch = "main" then .error .notFound else .ok ("deadbeef", 10)
    latestCommit := fun _ _ _ _ => .error .notFound }

/-- Counterexample for C3.  For the file-backed kinds
(Commands/Hooks/Agents), `check_file_resource_update` reports
`remote_deleted = true` as soon as the stored-branch lookup answers
not-found, even though the same oracle would deliver the blob on the
default branch `master`: no retry against the default branch exists on
this path (the function never queries a default branch at all). -/
theorem file_update_no_retry_counterexample :
    (check_file_resource_update "sc/agent" (some "acme") (some "commands")
        (some "main") (some "commands/sc/agent.md") (some "h")
        fileOracleCE).remote_deleted = true ∧
    fileOracleCE.fileBlobSha "acme" "commands" "master" "commands/sc/agent.md"
      = .ok ("deadbeef", 10) :=
  ⟨rfl, rfl⟩

/-- C3 (amended).  Skill update checks retry once against the
repository default branch: after a not-found on the stored branch, when
the default branch is fetched successfully and differs from the stored
branch, `remote_deleted` is reported exactly when the retry against the
default branch also answers not-found.  The file-resource check used
for Commands, Hooks and Agents performs no retry: a not-found on the
stored branch immediately reports `remote_deleted = true`. -/
theorem update_check_retry_amended :
    (∀ (skill : InstalledSkill) (o : SkillUpdateOracle)
      (owner repo branch dflt path : String),
      skill.repo = some (owner, repo, branch) →
      path = ((splitOnStr skill.id ":").drop 1).headD skill.directory →
      o.directoryHash owner repo branch path = .error .notFound →
      o.defaultBranch owner repo = .ok dflt →
      dflt ≠ branch →
      ((check_skill_update skill o).remote_deleted = true ↔
        o.directoryHash owner repo dflt path = .error .notFound)) ∧
    (∀ (id owner repo branch path : String) (current_hash : Option String)
      (o : FileUpdateOracle),
      o.fileBlobSha owner repo branch path = .error .notFound →
      (check_file_resource_update id (some owner) (some repo) (some branch)
        (some path) current_hash o).remote_deleted = true) := by
  constructor
  · intro skill o owner repo branch dflt path hrepo hpath h1 h2 hne
    unfold check_skill_update
    rw [hrepo]
    dsimp only
    rw [← hpath, h1, h2]
    dsimp only
    rw [if_pos hne]
    cases h3 : o.directoryHash owner repo dflt path with
    | ok new_hash => simp [skillHashResult]
    | error e => cases e <;> simp
  · intro id owner repo branch path current_hash o h1
    unfold check_file_resource_update
    simp only [Option.isNone_some, Option.getD_some]
    rw [if_neg (by simp)]
    rw [h1]

/-- An oracle for the skill retry: the stored branch `old` is gone, the
default branch is `master`, and the directory hash exists there. -/
def skillOracleW : SkillUpdateOracle :=
  { directoryHash := fun _ _ branch _ =>
      if branch = "old" then .error .notFound else .ok "cafe"
    defaultBranch := fun _ _ => .ok "master"
    latestCommit := fun _ _ _ _ => .ok ("msg", 5) }

/-- A concrete installed skill stored on branch `old`. -/
def sampleSkill : InstalledSkill :=
  { id := "acme/skills:sk", directory := "sk"
    repo := some ("acme", "skills", "old"), file_hash := some "h" }

/-- Witness for C3 (amended): the skill check with `skillOracleW` does
not report a deletion (the retry against `master` succeeds), and the
file-resource check with `fileOracleCE` reports one. -/
theorem update_check_retry_amended_witness :
    ((check_skill_update sampleSkill skillOracleW).remote_deleted = true ↔
      skillOracleW.directoryHash "acme" "skills" "master" "sk" = .error .notFound) ∧
    (check_file_resource_update "sc/agent" (some "acme") (some "commands")
      (some "main") (some "commands/sc/agent.md") (some "h")
      fileOracleCE).remote_deleted = true :=
  ⟨update_check_retry_amended.1 sampleSkill skillOracleW "acme" "skills" "old"
      "master" "sk" rfl (by decide) rfl rfl (by decide),
    update_check_retry_amended.2 "sc/agent" "acme" "commands" "main"
      "commands/sc/agent.md" (some "h") fileOracleCE rfl⟩

/-! ## C5: discovery deduplication and sorting

Lemmas about the shared `retain`-with-`seen`-set loop, proved once and
instantiated for the three kinds.
-/

/-- Every element the loop keeps has a key outside the `seen` set. -/
theorem retainFirstBy_mem_not_seen (f : α → String) :
    ∀ (l : List α) (seen : List String) (x : α),
      x ∈ retainFirstBy f seen l → f x ∉ seen
  | [], _, x, h => by simp [retainFirstBy] at h
  | c :: rest, seen, x, h => by
    unfold retainFirstBy at h
    by_cases hc : f c ∈ seen
    · rw [if_pos hc] at h
      exact retainFirstBy_mem_not_seen f rest seen x h
    · rw [if_neg hc] at h
      rcases List.mem_cons.mp h with h1 | h1
      · subst h1; exact hc
      · have h2 := retainFirstBy_mem_not_seen f rest (f c :: seen) x h1
        exact fun hx => h2 (List.mem_cons_of_mem _ hx)

/-- The loop output has pairwise distinct keys. -/
theorem retainFirstBy_pairwise (f : α → String) :
    ∀ (l : List α) (seen : List String),
      (retainFirstBy f seen l).Pairwise (fun a b => f a ≠ f b)
  | [], _ => by simp [retainFirstBy]
  | c :: rest, seen => by
    unfold retainFirstBy
    by_cases hc : f c ∈ seen
    · rw [if_pos hc]
      exact retainFirstBy_pairwise f rest seen
    · rw [if_neg hc]
      refine List.Pairwise.cons ?_ (retainFirstBy_pairwise f rest (f c :: seen))
      intro y hy heq
      exact retainFirstBy_mem_not_seen f rest (f c :: seen) y hy
        (heq ▸ List.mem_cons_self _ _)

/-- Unfolding equation: a head whose key was already seen is dropped. -/
theorem retainFirstBy_cons_mem (f : α → String) (c : α) (rest : List α)
    (seen : List String) (h : f c ∈ seen) :
    retainFirstBy f seen (c :: rest) = retainFirstBy f seen rest := by
  simp [retainFirstBy, h]

/-- Unfolding equation: a head with a fresh key is kept and its key
recorded. -/
theorem retainFirstBy_cons_not_mem (f : α → String) (c : α) (rest : List α)
    (seen : List String) (h : f c ∉ seen) :
    retainFirstBy f seen (c :: rest) = c :: retainFirstBy f (f c :: seen) rest := by
  simp [retainFirstBy, h]

/-- The loop output is a sublist of the input (order preserved). -/
theorem retainFirstBy_sublist (f : α → String) :
    ∀ (l : List α) (seen : List String), List.Sublist (retainFirstBy f seen l) l
  | [], _ => by simp [retainFirstBy]
  | c :: rest, seen => by
    by_cases hc : f c ∈ seen
    · rw [retainFirstBy_cons_mem f c rest seen hc]
      exact (retainFirstBy_sublist f rest seen).cons c
    · rw [retainFirstBy_cons_not_mem f c rest seen hc]
      exact (retainFirstBy_sublist f rest (f c :: seen)).cons₂ c

/-- The loop only consults the `seen` set through membership. -/
theorem retainFirstBy_congr (f : α → String) :
    ∀ (l : List α) (s1 s2 : List String), (∀ x, x ∈ s1 ↔ x ∈ s2) →
      retainFirstBy f s1 l = retainFirstBy f s2 l
  | [], _, _, _ => rfl
  | c :: rest, s1, s2, h => by
    unfold retainFirstBy
    by_cases hc : f c ∈ s1
    · rw [if_pos hc, if_pos ((h _).mp hc)]
      exact retainFirstBy_congr f rest s1 s2 h
    · rw [if_neg hc, if_neg (fun hx => hc ((h _).mpr hx))]
      rw [retainFirstBy_congr f rest (f c :: s1) (f c :: s2)
        (by intro x; simp [h x])]

/-- Adding a key to the `seen` set is the same as pre-filtering that
key away. -/
theorem retainFirstBy_filter (f : α → String) :
    ∀ (l : List α) (seen : List String) (k : String),
      retainFirstBy f (k :: seen) l =
        retainFirstBy f seen (l.filter (fun d => !(decide (f d = k))))
  | [], _, _ => rfl
  | c :: rest, seen, k => by
    by_cases hk : f c = k
    · have h1 : f c ∈ k :: seen := by simp [hk]
      rw [show (c :: rest).filter (fun d => !(decide (f d = k)))
          = rest.filter (fun d => !(decide (f d = k))) by simp [List.filter, hk]]
      rw [retainFirstBy_cons_mem f c rest (k :: seen) h1]
      exact retainFirstBy_filter f rest seen k
    · rw [show (c :: rest).filter (fun d => !(decide (f d = k)))
          = c :: rest.filter (fun d => !(decide (f d = k))) by simp [List.filter, hk]]
      by_cases hc : f c ∈ seen
      · have h1 : f c ∈ k :: seen := List.mem_cons_of_mem _ hc
        rw [retainFirstBy_cons_mem f c rest (k :: seen) h1,
          retainFirstBy_cons_mem f c (rest.filter (fun d => !(decide (f d = k)))) seen hc]
        exact retainFirstBy_filter f rest seen k
      · have h1 : f c ∉ k :: seen := by
          intro hx
          rcases List.mem_cons.mp hx with h2 | h2
          · exact hk h2
          · exact hc h2
        rw [retainFirstBy_cons_not_mem f c rest (k :: seen) h1,
          retainFirstBy_cons_not_mem f c (rest.filter (fun d => !(decide (f d = k)))) seen hc]
        rw [retainFirstBy_congr f rest (f c :: k :: seen) (k :: f c :: seen)
          (by intro x; constructor <;> (intro hx; simp at hx ⊢; tauto))]
        rw [retainFirstBy_filter f rest (f c :: seen) k]

/-- The head of a non-empty input is always kept first. -/
theorem retainFirstBy_cons (f : α → String) (c : α) (rest : List α) :
    retainFirstBy f [] (c :: rest) =
      c :: retainFirstBy f [] (rest.filter (fun d => !(decide (f d = f c)))) := by
  rw [retainFirstBy_cons_not_mem f c rest [] (List.not_mem_nil _)]
  exact congrArg _ (retainFirstBy_filter f rest [] (f c))

/-- Transitivity of the boolean name comparison used by the sorts. -/
theorem nameLe_trans {α : Type} (nameOf : α → String) (a b c : α)
    (h1 : decide ((lowerStr (nameOf a)).data ≤ (lowerStr (nameOf b)).data) = true)
    (h2 : decide ((lowerStr (nameOf b)).data ≤ (lowerStr (nameOf c)).data) = true) :
    decide ((lowerStr (nameOf a)).data ≤ (lowerStr (nameOf c)).data) = true := by
  simp only [decide_eq_true_eq] at h1 h2 ⊢
  exact le_trans h1 h2

/-- Totality of the boolean name comparison used by the sorts. -/
theorem nameLe_total {α : Type} (nameOf : α → String) (a b : α) :
    (decide ((lowerStr (nameOf a)).data ≤ (lowerStr (nameOf b)).data) ||
      decide ((lowerStr (nameOf b)).data ≤ (lowerStr (nameOf a)).data)) = true := by
  simp only [Bool.or_eq_true, decide_eq_true_eq]
  exact le_total _ _

/-- A concrete discoverable hook used by the counterexample. -/
def hookDiscA : DiscoverableHook :=
  { key := "Sec/Check", name := "n1", description := none
    event_type := .preToolUse, rules := [], repo_owner := "o"
    repo_name := "r", repo_branch := "main", readme_url := none
    source_path := none }

/-- The same hook under an id differing only in letter case. -/
def hookDiscB : DiscoverableHook :=
  { hookDiscA with key := "sec/check", name := "n2" }

/-- Counterexample for C5.  The claim says every kind deduplicates by
case-insensitive id; `HookService::deduplicate_hooks` (and likewise the
agent variant) compares keys exactly, so two ids differing only in
letter case both survive. -/
theorem hook_dedup_case_counterexample :
    lowerStr hookDiscA.key = lowerStr hookDiscB.key ∧
    hookDiscA.key ≠ hookDiscB.key ∧
    deduplicate_hooks [hookDiscA, hookDiscB] = [hookDiscA, hookDiscB] :=
  ⟨by decide, by decide, by decide⟩

/-- C5 (amended).  Discovery returns, for each kind, the input
deduplicated with first occurrence winning — case-insensitively on the
id for Commands, by exact id for Hooks and Agents — and then
stable-sorted by case-insensitive name.  Formally: the first occurrence
is kept and later occurrences of the same key are dropped (the cons
equations), the result has pairwise distinct keys and is a sublist of
the input, and the finalized list is a sorted permutation of the
deduplicated one. -/
theorem discover_dedup_sort_amended :
    (∀ (c : DiscoverableCommand) (rest : List DiscoverableCommand),
      deduplicate_commands (c :: rest) = c :: deduplicate_commands
        (rest.filter (fun d => !(decide (lowerStr d.key = lowerStr c.key))))) ∧
    (∀ l, (deduplicate_commands l).Pairwise
      (fun a b => lowerStr a.key ≠ lowerStr b.key)) ∧
    (∀ l, List.Sublist (deduplicate_commands l) l) ∧
    (∀ (h : DiscoverableHook) (rest : List DiscoverableHook),
      deduplicate_hooks (h :: rest) = h :: deduplicate_hooks
        (rest.filter (fun d => !(decide (d.key = h.key))))) ∧
    (∀ l, (deduplicate_hooks l).Pairwise (fun a b => a.key ≠ b.key)) ∧
    (∀ l, List.Sublist (deduplicate_hooks l) l) ∧
    (∀ (a : DiscoverableAgent) (rest : List DiscoverableAgent),
      deduplicate_agents (a :: rest) = a :: deduplicate_agents
        (rest.filter (fun d => !(decide (d.key = a.key))))) ∧
    (∀ l, (deduplicate_agents l).Pairwise (fun a b => a.key ≠ b.key)) ∧
    (∀ l, List.Sublist (deduplicate_agents l) l) ∧
    (∀ l, (discover_finalize_commands l).Pairwise
        (fun a b => (lowerStr a.name).data ≤ (lowerStr b.name).data) ∧
      (discover_finalize_commands l).Perm (deduplicate_commands l)) ∧
    (∀ l, (discover_finalize_hooks l).Pairwise
        (fun a b => (lowerStr a.name).data ≤ (lowerStr b.name).data) ∧
      (discover_finalize_hooks l).Perm (deduplicate_hooks l)) ∧
    (∀ l, (discover_finalize_agents l).Pairwise
        (fun a b => (lowerStr a.name).data ≤ (lowerStr b.name).data) ∧
      (discover_finalize_agents l).Perm (deduplicate_agents l)) := by
  refine ⟨?_, ?_, ?_, ?_, ?_, ?_, ?_, ?_, ?_, ?_, ?_, ?_⟩
  · exact fun c rest => retainFirstBy_cons _ c rest
  · exact fun l => retainFirstBy_pairwise _ l []
  · exact fun l => retainFirstBy_sublist _ l []
  · exact fun h rest => retainFirstBy_cons _ h rest
  · exact fun l => retainFirstBy_pairwise _ l []
  · exact fun l => retainFirstBy_sublist _ l []
  · exact fun a rest => retainFirstBy_cons _ a rest
  · exact fun l => retainFirstBy_pairwise _ l []
  · exact fun l => retainFirstBy_sublist _ l []
  · intro l
    constructor
    · exact (List.sorted_mergeSort (nameLe_trans (fun c : DiscoverableCommand => c.name))
        (nameLe_total (fun c : DiscoverableCommand => c.name)) (deduplicate_commands l)).imp
        (fun h => decide_eq_true_eq.mp h)
    · exact List.mergeSort_perm (deduplicate_commands l) _
  · intro l
    constructor
    · exact (List.sorted_mergeSort (nameLe_trans (fun h : DiscoverableHook => h.name))
        (nameLe_total (fun h : DiscoverableHook => h.name)) (deduplicate_hooks l)).imp
        (fun h => decide_eq_true_eq.mp h)
    · exact List.mergeSort_perm (deduplicate_hooks l) _
  · intro l
    constructor
    · exact (List.sorted_mergeSort (nameLe_trans (fun a : DiscoverableAgent => a.name))
        (nameLe_total (fun a : DiscoverableAgent => a.name)) (deduplicate_agents l)).imp
        (fun h => decide_eq_true_eq.mp h)
    · exact List.mergeSort_perm (deduplicate_agents l) _

/-! ## C4: repeat installs and the SSOT file -/

/-- A hook state holding a locally edited SSOT file `h.json`. -/
def hookStLocal : HookState :=
  { ssot := fun p => if p = "h.json" then some "local edit" else none
    db := []
    settingsHooks := fun _ => none }

/-- A concrete discoverable hook with key `h` and no source path. -/
def hookDiscLocal : DiscoverableHook :=
  { key := "h", name := "h", description := none, event_type := .preToolUse
    rules := [], repo_owner := "o", repo_name := "r", repo_branch := "main"
    readme_url := none, source_path := none }

/-- Counterexample for C4.  The claim says every kind skips the
download and write when the SSOT already has the file;
`HookService::install` writes the downloaded bytes unconditionally, so
a repeat install replaces the locally edited SSOT content. -/
theorem hook_install_clobbers_counterexample :
    hookStLocal.ssot "h.json" = some "local edit" ∧
    (hook_install hookStLocal hookDiscLocal .claude (.ok "\x7b\x7d")
        (.error "unused") serde_json_hook_metadata (fun _ => "lh") 0).2.ssot
      "h.json" = some "\x7b\x7d" :=
  ⟨rfl, by decide⟩

/-- C4 (amended).  `CommandService::install` skips the download and the
write whenever the SSOT already contains the file, so a repeat install
leaves every SSOT file unchanged (whatever the download, hash and parse
oracles do, and even on the error paths).  `HookService::install` and
`AgentService::install` have no such check: whenever the download
delivers some content, the SSOT file afterwards holds exactly that
content, clobbering any local edits. -/
theorem install_skip_download_amended :
    (∀ (st : CmdState) (command : DiscoverableCommand) (app : AppType)
      (download blobSha : Except String String)
      (yamlParse : String → Option CommandMetadata)
      (hash : String → String) (now : Int),
      (st.ssot (id_to_relative_path command.key)).isSome = true →
      (install st command app download blobSha yamlParse hash now).2.ssot
        = st.ssot) ∧
    (∀ (st : HookState) (hook : DiscoverableHook) (app : AppType)
      (content : String) (blobSha : Except String String)
      (jsonDecode : String → Option HookFileMetadata)
      (hash : String → String) (now : Int),
      (hook_install st hook app (.ok content) blobSha jsonDecode hash now).2.ssot
        (hook_id_to_relative_path hook.key) = some content) ∧
    (∀ (st : AgentState) (agent : DiscoverableAgent) (app : AppType)
      (content : String) (yamlParse : String → Option AgentMetadata)
      (hash : String → String) (now : Int),
      (agent_install st agent app (.ok content) yamlParse hash now).2.ssot
        (id_to_relative_path agent.key) = some content) := by
  refine ⟨?_, ?_, ?_⟩
  · intro st command app download blobSha yamlParse hash now h
    obtain ⟨c0, hs⟩ := Option.isSome_iff_exists.mp h
    simp only [install, hs, Option.isSome_some, if_true]
    split
    · rfl
    · simp only [copy_to_app, CmdState.writeApp, hs]
  · intro st hook app content blobSha jsonDecode hash now
    unfold hook_install
    dsimp only
    cases hp : parse_hook_metadata jsonDecode content with
    | error e => simp
    | ok metadata =>
      dsimp only
      unfold hook_sync_to_app
      dsimp only
      simp
  · intro st agent app content yamlParse hash now
    unfold agent_install
    dsimp only
    cases hp : parse_agent_metadata yamlParse content with
    | error e => simp
    | ok metadata =>
      dsimp only
      unfold agent_copy_to_app
      dsimp only
      rw [if_pos rfl]
      simp

/-- Witness for C4 (amended): the command part applied at a state that
already holds `sc/agent.md`, together with the hook and agent parts at
concrete inputs. -/
theorem install_skip_download_amended_witness :
    (install sampleSt sampleDisc .claude (.ok "remote") (.ok "sha")
        (fun _ => none) (fun _ => "h2") 7).2.ssot = sampleSt.ssot ∧
    (hook_install hookStLocal hookDiscLocal .claude (.ok "\x7b\x7d")
        (.error "unused") serde_json_hook_metadata (fun _ => "lh") 0).2.ssot
      "h.json" = some "\x7b\x7d" ∧
    (agent_install ⟨fun _ => none, fun _ _ => none, []⟩
        ⟨"a", "a", "", none, none, "o", "r", "main", none, none⟩ .claude
        (.ok "body") (fun _ => none) (fun _ => "ah") 0).2.ssot "a.md"
      = some "body" :=
  ⟨install_skip_download_amended.1 sampleSt sampleDisc .claude (.ok "remote")
      (.ok "sha") (fun _ => none) (fun _ => "h2") 7 (by decide),
    install_skip_download_amended.2.1 hookStLocal hookDiscLocal .claude
      "\x7b\x7d" (.error "unused") serde_json_hook_metadata (fun _ => "lh") 0,
    install_skip_download_amended.2.2 ⟨fun _ => none, fun _ _ => none, []⟩
      ⟨"a", "a", "", none, none, "o", "r", "main", none, none⟩ .claude
      "body" (fun _ => none) (fun _ => "ah") 0⟩

/-! ## C6: conflict resolution keeps the database-only fields -/

/-- A row found by id carries that id. -/
theorem get_installed_command_id (db : List InstalledCommand) (id : String)
    (cmd : InstalledCommand) (h : get_installed_command db id = some cmd) :
    cmd.id = id := by
  have h2 : db.find? (fun c => decide (c.id = id)) = some cmd := h
  have h3 := List.find?_some h2
  simpa using h3

/-- A row found by id is a member of the table. -/
theorem get_installed_command_mem (db : List InstalledCommand) (id : String)
    (cmd : InstalledCommand) (h : get_installed_command db id = some cmd) :
    cmd ∈ db := by
  have h2 : db.find? (fun c => decide (c.id = id)) = some cmd := h
  exact List.mem_of_find?_eq_some h2

/-- After an `INSERT OR REPLACE` of a row whose id already has a row,
lookup by that id returns the new row. -/
theorem get_installed_command_save (c2 : InstalledCommand) :
    ∀ (db : List InstalledCommand) (cmd : InstalledCommand),
      get_installed_command db c2.id = some cmd →
      get_installed_command (save_command db c2) c2.id = some c2
  | [], cmd, h => by simp [get_installed_command] at h
  | d :: rest, cmd, h => by
    by_cases hd : d.id = c2.id
    · simp [get_installed_command, save_command, List.find?, hd]
    · have h1 : get_installed_command rest c2.id = some cmd := by
        simpa [get_installed_command, List.find?_cons, hd] using h
      have h2 := get_installed_command_save c2 rest cmd h1
      have hmem : cmd ∈ rest := get_installed_command_mem rest c2.id cmd h1
      have hp : cmd.id = c2.id := get_installed_command_id rest c2.id cmd h1
      have hany : rest.any (fun c => c.id = c2.id) = true :=
        List.any_eq_true.mpr ⟨cmd, hmem, decide_eq_true hp⟩
      simp only [save_command, List.any_cons, hd, hany] at h2 ⊢
      simp only [decide_eq_true_eq, hd, decide_False, Bool.false_or, hany,
        if_true, if_false]
      simp only [get_installed_command, List.find?_cons, hd] at h2 ⊢
      simp_all [get_installed_command]

/-- C6.  For every installed command with a database row,
`resolve_conflict(id, app, KeepApp)` copies the app copy over the SSOT
file, re-parses its metadata, and saves a row whose metadata fields and
content hash come from the new content while every field only the
database knows (`repo_owner`, `repo_name`, `repo_branch`, the per-app
enabled flags, and also scope, project path, source path and install
time) is unchanged. -/
theorem resolve_conflict_keep_app_frame
    (st : CmdState) (id : String) (app : AppType)
    (yamlParse : String → Option CommandMetadata) (hash : String → String)
    (appContent : String) (cmd : InstalledCommand)
    (happ : st.appFiles app (id_to_relative_path id) = some appContent)
    (hcmd : get_installed_command st.db id = some cmd) :
    (resolve_conflict st id app .keepApp yamlParse hash).1 = .ok () ∧
    (resolve_conflict st id app .keepApp yamlParse hash).2.ssot
      (id_to_relative_path id) = some appContent ∧
    ∃ metadata cmd2,
      parse_command_metadata yamlParse appContent = .ok metadata ∧
      get_installed_command
          (resolve_conflict st id app .keepApp yamlParse hash).2.db id
        = some cmd2 ∧
      cmd2.repo_owner = cmd.repo_owner ∧ cmd2.repo_name = cmd.repo_name ∧
      cmd2.repo_branch = cmd.repo_branch ∧ cmd2.apps = cmd.apps ∧
      cmd2.scope = cmd.scope ∧ cmd2.project_path = cmd.project_path ∧
      cmd2.source_path = cmd.source_path ∧
      cmd2.installed_at = cmd.installed_at ∧
      cmd2.file_hash = some (hash appContent) ∧
      cmd2.name = metadata.name.getD cmd.name ∧
      cmd2.description = metadata.description.orElse (fun _ => cmd.description) ∧
      cmd2.category = metadata.category.orElse (fun _ => cmd.category) ∧
      cmd2.allowed_tools
        = metadata.allowed_tools.orElse (fun _ => cmd.allowed_tools) ∧
      cmd2.mcp_servers = metadata.mcp_servers.orElse (fun _ => cmd.mcp_servers) ∧
      cmd2.personas = metadata.personas.orElse (fun _ => cmd.personas) := by
  obtain ⟨metadata, hp⟩ := parse_command_metadata_isOk yamlParse appContent
  have hcid : cmd.id = id := get_installed_command_id st.db id cmd hcmd
  unfold resolve_conflict
  dsimp only
  rw [happ]
  dsimp only [CmdState.writeSsot]
  rw [hp]
  dsimp only
  rw [hcmd]
  dsimp only
  refine ⟨rfl, by simp, metadata,
    { cmd with
        name := metadata.name.getD cmd.name
        description := metadata.description.orElse (fun _ => cmd.description)
        category := metadata.category.orElse (fun _ => cmd.category)
        allowed_tools := metadata.allowed_tools.orElse (fun _ => cmd.allowed_tools)
        mcp_servers := metadata.mcp_servers.orElse (fun _ => cmd.mcp_servers)
        personas := metadata.personas.orElse (fun _ => cmd.personas)
        file_hash := some (hash appContent) },
    rfl, ?_, rfl, rfl, rfl, rfl, rfl, rfl, rfl, rfl, rfl, rfl, rfl, rfl, rfl,
    rfl, rfl⟩
  have hsave := get_installed_command_save
    ({ cmd with
        name := metadata.name.getD cmd.name
        description := metadata.description.orElse (fun _ => cmd.description)
        category := metadata.category.orElse (fun _ => cmd.category)
        allowed_tools := metadata.allowed_tools.orElse (fun _ => cmd.allowed_tools)
        mcp_servers := metadata.mcp_servers.orElse (fun _ => cmd.mcp_servers)
        personas := metadata.personas.orElse (fun _ => cmd.personas)
        file_hash := some (hash appContent) }) st.db cmd
    (show get_installed_command st.db cmd.id = some cmd by
      rw [hcid]; exact hcmd)
  rw [← hcid]
  exact hsave

/-- A command state whose Claude copy of `sc/agent` has been edited
away from the SSOT content. -/
def sampleStEdited : CmdState :=
  { ssot := fun p => if p = "sc/agent.md" then some "body" else none
    appFiles := fun a p =>
      if a = AppType.claude ∧ p = "sc/agent.md" then some "edited" else none
    projFiles := fun _ _ => none
    db := [sampleCmd] }

/-- Witness for C6: resolving the `sc/agent` conflict for Claude with
KeepApp at a concrete edited state. -/
theorem resolve_conflict_keep_app_frame_witness :
    (resolve_conflict sampleStEdited "sc/agent" .claude .keepApp
        (fun _ => none) (fun _ => "newh")).1 = .ok () ∧
    (resolve_conflict sampleStEdited "sc/agent" .claude .keepApp
        (fun _ => none) (fun _ => "newh")).2.ssot "sc/agent.md"
      = some "edited" ∧
    ∃ metadata cmd2,
      parse_command_metadata (fun _ => none) "edited" = .ok metadata ∧
      get_installed_command
          (resolve_conflict sampleStEdited "sc/agent" .claude .keepApp
            (fun _ => none) (fun _ => "newh")).2.db "sc/agent"
        = some cmd2 ∧
      cmd2.repo_owner = sampleCmd.repo_owner ∧
      cmd2.repo_name = sampleCmd.repo_name ∧
      cmd2.repo_branch = sampleCmd.repo_branch ∧ cmd2.apps = sampleCmd.apps ∧
      cmd2.scope = sampleCmd.scope ∧
      cmd2.project_path = sampleCmd.project_path ∧
      cmd2.source_path = sampleCmd.source_path ∧
      cmd2.installed_at = sampleCmd.installed_at ∧
      cmd2.file_hash = some "newh" ∧
      cmd2.name = metadata.name.getD sampleCmd.name ∧
      cmd2.description
        = metadata.description.orElse (fun _ => sampleCmd.description) ∧
      cmd2.category = metadata.category.orElse (fun _ => sampleCmd.category) ∧
      cmd2.allowed_tools
        = metadata.allowed_tools.orElse (fun _ => sampleCmd.allowed_tools) ∧
      cmd2.mcp_servers
        = metadata.mcp_servers.orElse (fun _ => sampleCmd.mcp_servers) ∧
      cmd2.personas = metadata.personas.orElse (fun _ => sampleCmd.personas) :=
  resolve_conflict_keep_app_frame sampleStEdited "sc/agent" .claude
    (fun _ => none) (fun _ => "newh") "edited" sampleCmd (by decide) (by decide)

/-! ## C2: repeated install -/

/-- Replacing the rows matching an id rewrites them in place, keeping
the number of rows with that id. -/
theorem count_map_replace (db : List InstalledCommand) (c2 : InstalledCommand)
    (id : String) (hid : c2.id = id) :
    ((db.map (fun c => if c.id = id then c2 else c)).filter
        (fun c => c.id = id)).length
      = (db.filter (fun c => c.id = id)).length := by
  induction db with
  | nil => rfl
  | cons d rest ih =>
    by_cases hd : d.id = id
    · simp only [List.map_cons, if_pos hd, List.filter_cons]
      simp [hd, hid, ih]
    · simp only [List.map_cons, if_neg hd, List.filter_cons]
      simp [hd, ih]

/-- The row the repeated install saves. -/
def sampleCmdBoth : InstalledCommand :=
  { sampleCmd with apps := ⟨true, true, false⟩ }

/-- `sampleSt` with `sc/agent` enabled for Claude and Codex. -/
def sampleStBoth : CmdState :=
  { sampleSt with db := [sampleCmdBoth] }

/-- Counterexample for C2.  The claim says the per-app enabled flags
may only grow across a repeated install; `install` builds a fresh row
with `apps = CommandApps::only(current_app)` and `save_command` is an
`INSERT OR REPLACE`, so re-installing `sc/agent` for Claude turns the
previously enabled Codex flag off. -/
theorem install_repeat_flags_reset_counterexample :
    ((get_installed_command sampleStBoth.db "sc/agent").map
      (fun c => c.apps.codex)) = some true ∧
    ((get_installed_command
        (install sampleStBoth sampleDisc .claude (.ok "x") (.ok "sha")
          (fun _ => none) (fun _ => "h") 1).2.db "sc/agent").map
      (fun c => c.apps.codex)) = some false :=
  ⟨rfl, by decide⟩

/-- C2 (amended).  Re-installing an already installed command (SSOT
file present, exactly one row for the id) succeeds, leaves the whole
SSOT tree unchanged, and leaves exactly one row for the id — but the
per-app enabled flags of that row are reset to enable exactly the
invoking app: previously enabled other apps are disabled, because the
fresh row carries `CommandApps::only(current_app)` and the save is an
`INSERT OR REPLACE`. -/
theorem install_repeat_idempotent_amended
    (st : CmdState) (command : DiscoverableCommand) (app : AppType)
    (download blobSha : Except String String)
    (yamlParse : String → Option CommandMetadata) (hash : String → String)
    (now : Int) (cmd : InstalledCommand)
    (hs : (st.ssot (id_to_relative_path command.key)).isSome = true)
    (hcmd : get_installed_command st.db command.key = some cmd)
    (hcount : (st.db.filter (fun c => c.id = command.key)).length = 1) :
    (∃ rec2,
      (install st command app download blobSha yamlParse hash now).1
        = .ok rec2) ∧
    (install st command app download blobSha yamlParse hash now).2.ssot
      = st.ssot ∧
    ((install st command app download blobSha yamlParse hash now).2.db.filter
      (fun c => c.id = command.key)).length = 1 ∧
    ∃ rec2,
      get_installed_command
          (install st command app download blobSha yamlParse hash now).2.db
          command.key
        = some rec2 ∧
      rec2.apps = CommandApps.only app := by
  obtain ⟨c0, hs0⟩ := Option.isSome_iff_exists.mp hs
  obtain ⟨metadata, hp⟩ := parse_command_metadata_isOk yamlParse c0
  have hmem : cmd ∈ st.db := get_installed_command_mem st.db command.key cmd hcmd
  have hid : cmd.id = command.key :=
    get_installed_command_id st.db command.key cmd hcmd
  have hany : st.db.any (fun c => c.id = command.key) = true :=
    List.any_eq_true.mpr ⟨cmd, hmem, decide_eq_true hid⟩
  simp only [install, hs0, Option.isSome_some, if_true, hp]
  try dsimp only
  simp only [copy_to_app, CmdState.writeApp]
  try dsimp only
  rw [hs0]
  try dsimp only
  constructor
  · exact ⟨_, rfl⟩
  constructor
  · rfl
  constructor
  · show ((save_command st.db _).filter _).length = 1
    rw [show (save_command st.db
        { id := command.key, name := metadata.name.getD command.name,
          description := metadata.description.orElse fun _ =>
            if command.description = "" then none else some command.description,
          nspace := (parse_id command.key).1,
          filename := (parse_id command.key).2,
          category := metadata.category.orElse fun _ => command.category,
          allowed_tools := metadata.allowed_tools,
          mcp_servers := metadata.mcp_servers, personas := metadata.personas,
          extra_metadata := none, repo_owner := some command.repo_owner,
          repo_name := some command.repo_name,
          repo_branch := some command.repo_branch,
          readme_url := command.readme_url, source_path := command.source_path,
          apps := CommandApps.only app,
          file_hash := some
            (match command.source_path with
            | some _ =>
              match blobSha with
              | .ok sha => sha
              | .error _ => hash c0
            | none => hash c0),
          installed_at := now, scope := "global", project_path := none })
        = st.db.map (fun c => if c.id = command.key then _ else c) from by
      unfold save_command
      rw [if_pos hany]]
    rw [count_map_replace st.db _ command.key rfl]
    exact hcount
  · have hsave := get_installed_command_save
      ({ id := command.key, name := metadata.name.getD command.name,
          description := metadata.description.orElse fun _ =>
            if command.description = "" then none else some command.description,
          nspace := (parse_id command.key).1,
          filename := (parse_id command.key).2,
          category := metadata.category.orElse fun _ => command.category,
          allowed_tools := metadata.allowed_tools,
          mcp_servers := metadata.mcp_servers, personas := metadata.personas,
          extra_metadata := none, repo_owner := some command.repo_owner,
          repo_name := some command.repo_name,
          repo_branch := some command.repo_branch,
          readme_url := command.readme_url, source_path := command.source_path,
          apps := CommandApps.only app,
          file_hash := some
            (match command.source_path with
            | some _ =>
              match blobSha with
              | .ok sha => sha
              | .error _ => hash c0
            | none => hash c0),
          installed_at := now, scope := "global", project_path := none })
      st.db cmd hcmd
    exact ⟨_, hsave, rfl⟩

/-- Witness for C2 (amended): re-installing `sc/agent` for Claude at
`sampleStBoth` satisfies the hypotheses, succeeds, keeps the SSOT map,
keeps one row, and ends with `apps = only Claude`. -/
theorem install_repeat_idempotent_amended_witness :
    (∃ rec2,
      (install sampleStBoth sampleDisc .claude (.ok "x") (.ok "sha")
        (fun _ => none) (fun _ => "h") 1).1 = .ok rec2) ∧
    (install sampleStBoth sampleDisc .claude (.ok "x") (.ok "sha")
      (fun _ => none) (fun _ => "h") 1).2.ssot = sampleStBoth.ssot ∧
    ((install sampleStBoth sampleDisc .claude (.ok "x") (.ok "sha")
      (fun _ => none) (fun _ => "h") 1).2.db.filter
      (fun c => c.id = sampleDisc.key)).length = 1 ∧
    ∃ rec2,
      get_installed_command
          (install sampleStBoth sampleDisc .claude (.ok "x") (.ok "sha")
            (fun _ => none) (fun _ => "h") 1).2.db sampleDisc.key
        = some rec2 ∧
      rec2.apps = CommandApps.only .claude :=
  install_repeat_idempotent_amended sampleStBoth sampleDisc .claude (.ok "x")
    (.ok "sha") (fun _ => none) (fun _ => "h") 1 sampleCmdBoth (by decide)
    (by decide) (by decide)

/-! ## C1: the projection invariant

`Agrees st app p` says the SSOT file at `p` exists and the app copy
holds exactly its bytes; since the copies are byte-identical, any hash
of the two copies is equal.
-/

/-- The SSOT file exists and the app copy equals it byte-for-byte. -/
def Agrees (st : CmdState) (app : AppType) (p : String) : Prop :=
  (st.ssot p).isSome = true ∧ st.appFiles app p = st.ssot p

/-- One sync step never touches the SSOT tree. -/
theorem sync_one_ssot (acc : Nat × CmdState) (cmd : InstalledCommand)
    (a : AppType) : (sync_one acc cmd a).2.ssot = acc.2.ssot := by
  unfold sync_one
  by_cases he : cmd.apps.is_enabled_for a
  · simp only [he, if_true]
    unfold copy_to_app
    dsimp only
    cases hs : acc.2.ssot (id_to_relative_path cmd.id) <;> rfl
  · simp [he]

/-- One sync step preserves agreement at every location. -/
theorem sync_one_agrees_preserved (acc : Nat × CmdState)
    (cmd : InstalledCommand) (a b : AppType) (p : String)
    (h : Agrees acc.2 b p) : Agrees (sync_one acc cmd a).2 b p := by
  unfold sync_one
  by_cases he : cmd.apps.is_enabled_for a
  · simp only [he, if_true]
    unfold copy_to_app
    dsimp only
    cases hs : acc.2.ssot (id_to_relative_path cmd.id) with
    | none => exact h
    | some c =>
      dsimp only [CmdState.writeApp]
      refine ⟨h.1, ?_⟩
      show (if b = a ∧ p = id_to_relative_path cmd.id then some c
          else acc.2.appFiles b p) = acc.2.ssot p
      by_cases hbp : b = a ∧ p = id_to_relative_path cmd.id
      · rw [if_pos hbp, hbp.2, hs]
      · rw [if_neg hbp]
        exact h.2
  · simp only [he, if_false]
    exact h

/-- One sync step establishes agreement for its own enabled pair. -/
theorem sync_one_agrees_est (acc : Nat × CmdState) (cmd : InstalledCommand)
    (a : AppType) (he : cmd.apps.is_enabled_for a = true)
    (hs : (acc.2.ssot (id_to_relative_path cmd.id)).isSome = true) :
    Agrees (sync_one acc cmd a).2 a (id_to_relative_path cmd.id) := by
  obtain ⟨c, hc⟩ := Option.isSome_iff_exists.mp hs
  unfold sync_one copy_to_app
  simp only [he, if_true, hc]
  dsimp only [CmdState.writeApp]
  refine ⟨by rw [hc]; rfl, ?_⟩
  show (if a = a ∧ id_to_relative_path cmd.id = id_to_relative_path cmd.id
      then some c else acc.2.appFiles a (id_to_relative_path cmd.id))
    = acc.2.ssot (id_to_relative_path cmd.id)
  rw [if_pos ⟨rfl, rfl⟩, hc]

/-- The inner loop over the three applications, unfolded. -/
theorem sync_apps_unfold (acc : Nat × CmdState) (cmd : InstalledCommand) :
    AppType.all.foldl (fun acc2 a => sync_one acc2 cmd a) acc
      = sync_one (sync_one (sync_one acc cmd .claude) cmd .codex) cmd .gemini :=
  rfl

/-- The inner loop never touches the SSOT tree. -/
theorem sync_apps_ssot (acc : Nat × CmdState) (cmd : InstalledCommand) :
    (AppType.all.foldl (fun acc2 a => sync_one acc2 cmd a) acc).2.ssot
      = acc.2.ssot := by
  rw [sync_apps_unfold, sync_one_ssot, sync_one_ssot, sync_one_ssot]

/-- The inner loop preserves agreement at every location. -/
theorem sync_apps_preserved (acc : Nat × CmdState) (cmd : InstalledCommand)
    (b : AppType) (p : String) (h : Agrees acc.2 b p) :
    Agrees (AppType.all.foldl (fun acc2 a => sync_one acc2 cmd a) acc).2 b p := by
  rw [sync_apps_unfold]
  exact sync_one_agrees_preserved _ _ _ _ _
    (sync_one_agrees_preserved _ _ _ _ _
      (sync_one_agrees_preserved _ _ _ _ _ h))

/-- The inner loop establishes agreement for every enabled app of its
command. -/
theorem sync_apps_est (acc : Nat × CmdState) (cmd : InstalledCommand)
    (a : AppType) (he : cmd.apps.is_enabled_for a = true)
    (hs : (acc.2.ssot (id_to_relative_path cmd.id)).isSome = true) :
    Agrees (AppType.all.foldl (fun acc2 a => sync_one acc2 cmd a) acc).2 a
      (id_to_relative_path cmd.id) := by
  rw [sync_apps_unfold]
  cases a with
  | claude =>
    exact sync_one_agrees_preserved _ _ _ _ _
      (sync_one_agrees_preserved _ _ _ _ _ (sync_one_agrees_est acc cmd .claude he hs))
  | codex =>
    refine sync_one_agrees_preserved _ _ _ _ _ (sync_one_agrees_est _ cmd .codex he ?_)
    rw [sync_one_ssot]
    exact hs
  | gemini =>
    refine sync_one_agrees_est _ cmd .gemini he ?_
    rw [sync_one_ssot, sync_one_ssot]
    exact hs

/-- The outer loop preserves agreement at every location. -/
theorem sync_fold_preserved :
    ∀ (l : List InstalledCommand) (acc : Nat × CmdState) (b : AppType)
      (p : String), Agrees acc.2 b p →
      Agrees ((l.foldl (fun acc cmd =>
        AppType.all.foldl (fun acc2 a => sync_one acc2 cmd a) acc) acc)).2 b p
  | [], _, _, _, h => h
  | d :: rest, acc, b, p, h =>
    sync_fold_preserved rest _ b p (sync_apps_preserved acc d b p h)

/-- The outer loop never touches the SSOT tree. -/
theorem sync_fold_ssot :
    ∀ (l : List InstalledCommand) (acc : Nat × CmdState),
      ((l.foldl (fun acc cmd =>
        AppType.all.foldl (fun acc2 a => sync_one acc2 cmd a) acc) acc)).2.ssot
        = acc.2.ssot
  | [], _ => rfl
  | d :: rest, acc => by
    rw [List.foldl_cons, sync_fold_ssot rest _, sync_apps_ssot]

/-- The outer loop establishes agreement for every enabled pair of
every listed command whose SSOT file exists. -/
theorem sync_fold_est :
    ∀ (l : List InstalledCommand) (acc : Nat × CmdState)
      (cmd : InstalledCommand) (a : AppType), cmd ∈ l →
      cmd.apps.is_enabled_for a = true →
      (acc.2.ssot (id_to_relative_path cmd.id)).isSome = true →
      Agrees ((l.foldl (fun acc cmd =>
        AppType.all.foldl (fun acc2 a => sync_one acc2 cmd a) acc) acc)).2 a
        (id_to_relative_path cmd.id)
  | [], _, _, _, hmem, _, _ => absurd hmem (List.not_mem_nil _)
  | d :: rest, acc, cmd, a, hmem, he, hs => by
    rw [List.foldl_cons]
    rcases List.mem_cons.mp hmem with h1 | h1
    · subst h1
      exact sync_fold_preserved rest _ a _ (sync_apps_est acc cmd a he hs)
    · refine sync_fold_est rest _ cmd a h1 he ?_
      rw [sync_apps_ssot]
      exact hs

/-- C1.  Immediately after a successful `toggle_app(id, app, true)` the
app copy holds exactly the SSOT bytes of the toggled command, and
immediately after a `sync_all_to_apps` pass the same holds for every
row and every enabled app whose SSOT file exists (a missing SSOT file
makes the pair's copy fail, which the pass counts but does not
propagate).  Byte equality entails equality of the content hashes. -/
theorem projection_invariant :
    (∀ (st : CmdState) (id : String) (app : AppType) (st1 : CmdState),
      toggle_app st id app true = (.ok (), st1) →
      Agrees st1 app (id_to_relative_path id)) ∧
    (∀ (st : CmdState) (cmd : InstalledCommand) (app : AppType),
      cmd ∈ st.db → cmd.apps.is_enabled_for app = true →
      (st.ssot (id_to_relative_path cmd.id)).isSome = true →
      Agrees (sync_all_to_apps st).2 app (id_to_relative_path cmd.id)) := by
  constructor
  · intro st id app st1 h
    unfold toggle_app at h
    cases hg : get_installed_command st.db id with
    | none =>
      rw [hg] at h
      exact absurd h (by simp)
    | some cmd =>
      rw [hg] at h
      dsimp only at h
      unfold copy_to_app at h
      dsimp only at h
      cases hs : st.ssot (id_to_relative_path id) with
      | none =>
        rw [hs] at h
        exact absurd h (by simp)
      | some c =>
        rw [hs] at h
        dsimp only [CmdState.writeApp] at h
        injection h with h1 h2
        subst h2
        refine ⟨show (st.ssot (id_to_relative_path id)).isSome = true by
          rw [hs]; rfl, ?_⟩
        show (if app = app ∧ id_to_relative_path id = id_to_relative_path id
            then some c else st.appFiles app (id_to_relative_path id))
          = st.ssot (id_to_relative_path id)
        rw [if_pos ⟨rfl, rfl⟩, hs]
  · intro st cmd app hmem he hs
    exact sync_fold_est st.db (0, st) cmd app hmem he hs

/-- Witness for C1: toggling Codex on for `sc/agent` and running the
bulk pass at `sampleSt` both leave the Codex and Claude copies equal to
the SSOT file. -/
theorem projection_invariant_witness :
    Agrees (toggle_app sampleSt "sc/agent" .codex true).2 .codex "sc/agent.md" ∧
    Agrees (sync_all_to_apps sampleSt).2 .claude "sc/agent.md" :=
  ⟨projection_invariant.1 sampleSt "sc/agent" .codex
      (toggle_app sampleSt "sc/agent" .codex true).2 rfl,
    projection_invariant.2 sampleSt sampleCmd .claude
      (List.mem_singleton.mpr rfl) (by decide) (by decide)⟩

/-! ## C8: scope migration never persists both scopes

Frame lemmas for the four file primitives, then the temporal statement
over the trace `change_scope` returns.
-/

/-- Some application directory holds a copy of the resource. -/
def hasGlobalProjection (st : CmdState) (id : String) : Prop :=
  ∃ a, (st.appFiles a (id_to_relative_path id)).isSome = true

/-- Some project directory holds a copy of the resource. -/
def hasProjectProjection (st : CmdState) (id : String) : Prop :=
  ∃ p, (st.projFiles p (id_to_relative_path id)).isSome = true

/-- The stored scope accounts for every projection on disk: a Global
row has no project copies, and a Project row has no app copies and
project copies only at its own path.  This is the exclusivity invariant
the engine maintains (spec section 3, invariant 3). -/
def scopeExclusive (st : CmdState) (cmd : InstalledCommand) : Prop :=
  match InstallScope.from_db cmd.scope cmd.project_path with
  | .global => ¬ hasProjectProjection st cmd.id
  | .project p => ¬ hasGlobalProjection st cmd.id ∧
      ∀ p2, (st.projFiles p2 (id_to_relative_path cmd.id)).isSome = true → p2 = p

/-- `remove_from_app` leaves the project tree untouched. -/
theorem remove_from_app_projFiles (st : CmdState) (id : String) (a : AppType) :
    (remove_from_app st id a).2.projFiles = st.projFiles := by
  unfold remove_from_app
  dsimp only
  cases st.appFiles a (id_to_relative_path id) <;> rfl

/-- `remove_from_app` clears its own app copy. -/
theorem remove_from_app_appFiles_self (st : CmdState) (id : String)
    (a : AppType) :
    (remove_from_app st id a).2.appFiles a (id_to_relative_path id) = none := by
  unfold remove_from_app
  dsimp only
  cases hs : st.appFiles a (id_to_relative_path id) with
  | none => exact hs
  | some c =>
    dsimp only [CmdState.writeApp]
    rw [if_pos ⟨rfl, rfl⟩]

/-- `remove_from_app` changes no other location. -/
theorem remove_from_app_appFiles_frame (st : CmdState) (id : String)
    (a b : AppType) (q : String) (h : ¬(b = a ∧ q = id_to_relative_path id)) :
    (remove_from_app st id a).2.appFiles b q = st.appFiles b q := by
  unfold remove_from_app
  dsimp only
  cases hs : st.appFiles a (id_to_relative_path id) with
  | none => rfl
  | some c =>
    dsimp only [CmdState.writeApp]
    rw [if_neg h]

/-- `remove_from_project` leaves the app trees untouched. -/
theorem remove_from_project_appFiles (st : CmdState) (id p0 : String) :
    (remove_from_project st id p0).2.appFiles = st.appFiles := by
  unfold remove_from_project
  dsimp only
  cases st.projFiles p0 (id_to_relative_path id) <;> rfl

/-- `remove_from_project` clears its own project copy. -/
theorem remove_from_project_projFiles_self (st : CmdState) (id p0 : String) :
    (remove_from_project st id p0).2.projFiles p0 (id_to_relative_path id)
      = none := by
  unfold remove_from_project
  dsimp only
  cases hs : st.projFiles p0 (id_to_relative_path id) with
  | none => exact hs
  | some c =>
    dsimp only [CmdState.writeProj]
    rw [if_pos ⟨rfl, rfl⟩]

/-- `remove_from_project` changes no other location. -/
theorem remove_from_project_projFiles_frame (st : CmdState) (id p0 p2 q : String)
    (h : ¬(p2 = p0 ∧ q = id_to_relative_path id)) :
    (remove_from_project st id p0).2.projFiles p2 q = st.projFiles p2 q := by
  unfold remove_from_project
  dsimp only
  cases hs : st.projFiles p0 (id_to_relative_path id) with
  | none => rfl
  | some c =>
    dsimp only [CmdState.writeProj]
    rw [if_neg h]

/-- `copy_to_app` leaves the project tree untouched (on success and on
failure alike). -/
theorem copy_to_app_projFiles (st : CmdState) (id : String) (a : AppType) :
    (copy_to_app st id a).2.projFiles = st.projFiles := by
  unfold copy_to_app
  dsimp only
  cases st.ssot (id_to_relative_path id) <;> rfl

/-- `copy_to_project` leaves the app trees untouched (on success and on
failure alike). -/
theorem copy_to_project_appFiles (st : CmdState) (id p0 : String) :
    (copy_to_project st id p0).2.appFiles = st.appFiles := by
  unfold copy_to_project
  dsimp only
  cases st.ssot (id_to_relative_path id) <;> rfl

/-- After the three per-app removals of the Global branch, no app
directory holds the resource. -/
theorem removal_clears_global (st : CmdState) (id : String) :
    ¬ hasGlobalProjection
      (remove_from_app (remove_from_app (remove_from_app st id .claude).2
        id .codex).2 id .gemini).2 id := by
  rintro ⟨a, ha⟩
  set s1 := (remove_from_app st id .claude).2 with hs1
  set s2 := (remove_from_app s1 id .codex).2 with hs2
  cases a with
  | claude =>
    rw [remove_from_app_appFiles_frame _ _ _ _ _ (by simp),
      remove_from_app_appFiles_frame _ _ _ _ _ (by simp),
      remove_from_app_appFiles_self] at ha
    exact Bool.noConfusion ha
  | codex =>
    rw [remove_from_app_appFiles_frame _ _ _ _ _ (by simp),
      remove_from_app_appFiles_self] at ha
    exact Bool.noConfusion ha
  | gemini =>
    rw [remove_from_app_appFiles_self] at ha
    exact Bool.noConfusion ha

/-- Two states with the same app trees agree on `hasGlobalProjection`. -/
theorem not_global_of_appFiles_eq {s1 s2 : CmdState} {id : String}
    (h : s2.appFiles = s1.appFiles) (h1 : ¬ hasGlobalProjection s1 id) :
    ¬ hasGlobalProjection s2 id := by
  rintro ⟨a, ha⟩
  exact h1 ⟨a, by rwa [h] at ha⟩

/-- Two states with the same project trees agree on
`hasProjectProjection`. -/
theorem not_project_of_projFiles_eq {s1 s2 : CmdState} {id : String}
    (h : s2.projFiles = s1.projFiles) (h1 : ¬ hasProjectProjection s1 id) :
    ¬ hasProjectProjection s2 id := by
  rintro ⟨p, hp⟩
  exact h1 ⟨p, by rwa [h] at hp⟩

/-- After removing the single project copy of a Project-scoped row whose
projections were exclusive, no project directory holds the resource. -/
theorem removal_clears_project (st : CmdState) (id p0 : String)
    (hex : ∀ p2, (st.projFiles p2 (id_to_relative_path id)).isSome = true → p2 = p0) :
    ¬ hasProjectProjection (remove_from_project st id p0).2 id := by
  rintro ⟨q, hq⟩
  by_cases hqp : q = p0
  · subst hqp
    rw [remove_from_project_projFiles_self] at hq
    exact Bool.noConfusion hq
  · rw [remove_from_project_projFiles_frame _ _ _ _ _
      (fun hand => hqp hand.1)] at hq
    exact hqp (hex q hq)

/-- C8.  For every installed command whose on-disk projections satisfy
the scope-exclusivity invariant, `change_scope` migrates by removing
the old scope projections first and copying into the new scope second:
no state in the execution trace (initial state, each removal, the copy,
the database update — on the error paths included) holds both a global
projection and a project projection of the resource at once. -/
theorem change_scope_never_both (st : CmdState) (id : String)
    (new_scope : InstallScope) (current_app : AppType)
    (cmd : InstalledCommand)
    (hg : get_installed_command st.db id = some cmd)
    (hex : scopeExclusive st cmd) :
    ∀ s ∈ (change_scope st id new_scope current_app).2.2,
      ¬(hasGlobalProjection s id ∧ hasProjectProjection s id) := by
  have hcid : cmd.id = id := get_installed_command_id st.db id cmd hg
  unfold scopeExclusive at hex
  rw [hcid] at hex
  unfold change_scope
  rw [hg]
  dsimp only
  by_cases heq : InstallScope.from_db cmd.scope cmd.project_path = new_scope
  · rw [if_pos heq]
    intro s hs
    rw [List.mem_singleton] at hs
    subst hs
    rintro ⟨hgp, hpp⟩
    cases hcur : InstallScope.from_db cmd.scope cmd.project_path with
    | global => rw [hcur] at hex; exact hex hpp
    | project p => rw [hcur] at hex; exact hex.1 hgp
  · rw [if_neg heq]
    cases hcur : InstallScope.from_db cmd.scope cmd.project_path with
    | global =>
      rw [hcur] at hex
      dsimp only
      cases new_scope with
      | global => exact absurd hcur heq
      | project p =>
        dsimp only
        have hp1 : ¬ hasProjectProjection (remove_from_app st id .claude).2 id :=
          not_project_of_projFiles_eq (remove_from_app_projFiles st id .claude) hex
        have hp2 : ¬ hasProjectProjection
            (remove_from_app (remove_from_app st id .claude).2 id .codex).2 id :=
          not_project_of_projFiles_eq (remove_from_app_projFiles _ id .codex) hp1
        have hp3 : ¬ hasProjectProjection
            (remove_from_app (remove_from_app (remove_from_app st id
              .claude).2 id .codex).2 id .gemini).2 id :=
          not_project_of_projFiles_eq (remove_from_app_projFiles _ id .gemini) hp2
        rcases hcopy : copy_to_project
          (remove_from_app (remove_from_app (remove_from_app st id .claude).2
            id .codex).2 id .gemini).2 id p with ⟨r, st2⟩
        have hst2app : st2.appFiles
            = (remove_from_app (remove_from_app (remove_from_app st id
              .claude).2 id .codex).2 id .gemini).2.appFiles := by
          rw [show st2 = (copy_to_project _ id p).2 by rw [hcopy]]
          exact copy_to_project_appFiles _ id p
        have hnotg2 : ¬ hasGlobalProjection st2 id :=
          not_global_of_appFiles_eq hst2app (removal_clears_global st id)
        cases r with
        | error e =>
          try rw [hcopy]
          dsimp only
          intro s hs
          simp only [List.cons_append, List.nil_append, List.mem_cons,
            List.mem_singleton, List.not_mem_nil, or_false] at hs
          rcases hs with h | h | h | h | h <;> subst h
          · exact fun hb => hex hb.2
          · exact fun hb => hp1 hb.2
          · exact fun hb => hp2 hb.2
          · exact fun hb => hp3 hb.2
          · exact fun hb => hnotg2 hb.1
        | ok u =>
          try rw [hcopy]
          dsimp only
          intro s hs
          simp only [List.cons_append, List.nil_append, List.mem_cons,
            List.mem_singleton, List.not_mem_nil, or_false] at hs
          rcases hs with h | h | h | h | h | h <;> subst h
          · exact fun hb => hex hb.2
          · exact fun hb => hp1 hb.2
          · exact fun hb => hp2 hb.2
          · exact fun hb => hp3 hb.2
          · exact fun hb => hnotg2 hb.1
          · exact fun hb => not_global_of_appFiles_eq rfl hnotg2 hb.1
    | project p0 =>
      rw [hcur] at hex
      dsimp only
      have hg1 : ¬ hasGlobalProjection (remove_from_project st id p0).2 id :=
        not_global_of_appFiles_eq (remove_from_project_appFiles st id p0) hex.1
      have hnp1 : ¬ hasProjectProjection (remove_from_project st id p0).2 id :=
        removal_clears_project st id p0 hex.2
      cases new_scope with
      | global =>
        rcases hcopy : copy_to_app (remove_from_project st id p0).2 id
          current_app with ⟨r, st2⟩
        have hst2proj : st2.projFiles
            = (remove_from_project st id p0).2.projFiles := by
          rw [show st2 = (copy_to_app _ id current_app).2 by rw [hcopy]]
          exact copy_to_app_projFiles _ id current_app
        have hnp2 : ¬ hasProjectProjection st2 id :=
          not_project_of_projFiles_eq hst2proj hnp1
        cases r with
        | error e =>
          try rw [hcopy]
          dsimp only
          intro s hs
          simp only [List.cons_append, List.nil_append, List.mem_cons,
            List.mem_singleton, List.not_mem_nil, or_false] at hs
          rcases hs with h | h | h <;> subst h
          · exact fun hb => hex.1 hb.1
          · exact fun hb => hg1 hb.1
          · exact fun hb => hnp2 hb.2
        | ok u =>
          try rw [hcopy]
          dsimp only
          intro s hs
          simp only [List.cons_append, List.nil_append, List.mem_cons,
            List.mem_singleton, List.not_mem_nil, or_false] at hs
          rcases hs with h | h | h | h <;> subst h
          · exact fun hb => hex.1 hb.1
          · exact fun hb => hg1 hb.1
          · exact fun hb => hnp2 hb.2
          · exact fun hb => not_project_of_projFiles_eq rfl hnp2 hb.2
      | project p1 =>
        dsimp only
        intro s hs
        split at hs
        next e st2 hcopy =>
          have hst2app : st2.appFiles
              = (remove_from_project st id p0).2.appFiles := by
            rw [show st2 = (copy_to_project (remove_from_project st id p0).2
                id p1).2 by rw [hcopy]]
            exact copy_to_project_appFiles _ id p1
          have hg2 : ¬ hasGlobalProjection st2 id :=
            not_global_of_appFiles_eq hst2app hg1
          dsimp only at hs
          simp only [List.cons_append, List.nil_append, List.mem_cons,
            List.mem_singleton, List.not_mem_nil, or_false] at hs
          rcases hs with h | h | h <;> subst h
          · exact fun hb => hex.1 hb.1
          · exact fun hb => hg1 hb.1
          · exact fun hb => hg2 hb.1
        next u st2 hcopy =>
          have hst2app : st2.appFiles
              = (remove_from_project st id p0).2.appFiles := by
            rw [show st2 = (copy_to_project (remove_from_project st id p0).2
                id p1).2 by rw [hcopy]]
            exact copy_to_project_appFiles _ id p1
          have hg2 : ¬ hasGlobalProjection st2 id :=
            not_global_of_appFiles_eq hst2app hg1
          dsimp only at hs
          simp only [List.cons_append, List.nil_append, List.mem_cons,
            List.mem_singleton, List.not_mem_nil, or_false] at hs
          rcases hs with h | h | h | h <;> subst h
          · exact fun hb => hex.1 hb.1
          · exact fun hb => hg1 hb.1
          · exact fun hb => hg2 hb.1
          · exact fun hb => not_global_of_appFiles_eq rfl hg2 hb.1

/-- Witness for C8: migrating `sc/agent` from Global (Claude copy
present) to project `/w`, checked at the initial state of the returned
trace. -/
theorem change_scope_never_both_witness :
    ¬(hasGlobalProjection sampleStEdited "sc/agent" ∧
      hasProjectProjection sampleStEdited "sc/agent") :=
  change_scope_never_both sampleStEdited "sc/agent" (.project "/w") .claude
    sampleCmd rfl
    (by
      rintro ⟨p, hp⟩
      simp [sampleStEdited] at hp)
    sampleStEdited (List.mem_cons_self _ _)

end CCSwitch
